import Mathlib

/-!
Verification of the canopy terminal-UI core against its specification.

The development shallowly embeds the relevant Rust source files:

* `src/canopy/src/outcome.rs` — the `Outcome` walker accumulator.
* `src/canopy/src/geom/view.rs` — the `View` pair of rectangles.
* `src/canopy/src/node.rs` — the generic preorder/postorder traversals.
* `src/canopy/src/focus.rs` — the focus subsystem
  (`walk`, `path`, `shift_first`, `shift_next`, `shift_prev`).
* `src/canopy/src/global.rs` — the global focus generation counter.

Rust mutation is embedded as explicit state passing: a `&mut` receiver
becomes an argument and a result, and `FnMut` closures become functions
threading an explicit state value (their captured variables).  Machine
integers (`u16`, `u64`) are modelled as `Nat`; the spec mandates
saturating coordinate arithmetic, which `Nat` subtraction matches, and
all inputs in this development stay far below `2^16`.

Definitions whose Rust source is not part of the repository snapshot
(`Rect::clamp`, `Rect::contains_rect`, the `Walk`-based traversal module
used by `focus.rs`, `StatefulNode::set_focus`) are modelled from the
specification and carry a doc comment saying so.
-/

/-! ## Geometry: Point, Rect, View (`src/canopy/src/geom/view.rs`) -/

/-- A point on the integer grid, from the geometry primitives.
Coordinates are `u16` in the source, modelled as `Nat`. -/
structure Point where
  x : Nat
  y : Nat
deriving Repr, DecidableEq

/-- An axis-aligned rectangle: top-left corner plus width and height. -/
structure Rect where
  tl : Point
  w : Nat
  h : Nat
deriving Repr, DecidableEq

/-- Build a rectangle from bare coordinates, mirroring `Rect::new(x, y, w, h)`. -/
def Rect.new (x y w h : Nat) : Rect :=
  ⟨⟨x, y⟩, w, h⟩

/-- Modelled from the spec: `Rect::contains_rect` is not under `src/`.
Containment test of `other` inside `self` — every point of `other`
lies inside `self` (§3: "containment test (point, rect)"). -/
def Rect.contains_rect (s other : Rect) : Bool :=
  s.tl.x ≤ other.tl.x && s.tl.y ≤ other.tl.y &&
    other.tl.x + other.w ≤ s.tl.x + s.w && other.tl.y + other.h ≤ s.tl.y + s.h

/-- Modelled from the spec: the shifting part of `Rect::clamp`, which is not
under `src/`.  Fit `b` inside `a` by translating it minimally, never
resizing (§3 and §8: "for all rectangles A, B where B's width/height ≤ A's
width/height, `clamp(B, A)` returns a rectangle fully contained in A,
translated minimally").  This total function is the non-error branch of
`Rect.clamp`; it reproduces the concrete expectations of the tests in
`geom/view.rs` (`view_set_inner`, `view_resize_outer`, `view_movement`). -/
def Rect.clampShift (b a : Rect) : Rect :=
  ⟨⟨min (max b.tl.x a.tl.x) (a.tl.x + a.w - b.w),
    min (max b.tl.y a.tl.y) (a.tl.y + a.h - b.h)⟩, b.w, b.h⟩

/-- Modelled from the spec: `Rect::clamp` is not under `src/`.  `b.clamp a`
shifts `b` to lie fully inside `a`; it is an error if `b` is larger than
`a` in either dimension (callers in `geom/view.rs` rely on exactly this
error condition for their `unwrap` safety comments). -/
def Rect.clamp (b a : Rect) : Except String Rect :=
  if a.w < b.w || a.h < b.h then
    .error "rect too large to clamp"
  else
    .ok (Rect.clampShift b a)

/-- `View` from `geom/view.rs`: an outer rectangle and a view rectangle
free to move within it. -/
structure View where
  view : Rect
  outer : Rect
deriving Repr, DecidableEq

/-- `View::new` from `geom/view.rs`: the view rectangle must be fully
contained within the outer rectangle. -/
def View.new (outer view : Rect) : Except String View :=
  if !(outer.contains_rect view) then
    .error "view not contained in outer"
  else
    .ok ⟨view, outer⟩

/-- `View::set_inner` from `geom/view.rs`, value-level form: the inner
rectangle is clamped into the outer rectangle and becomes the new view. -/
def View.set_inner (v : View) (inner : Rect) : Except String View :=
  match inner.clamp v.outer with
  | .ok r => .ok { v with view := r }
  | .error e => .error e

/-- `View::set_inner` with the mutation semantics of the Rust
`self.view = inner.clamp(self.outer)?` made explicit: the first component
is the receiver after the call (unchanged when the clamp fails and the
`?` operator returns early), the second the returned `Result`. -/
def View.set_inner_state (v : View) (inner : Rect) : View × Except String Unit :=
  match inner.clamp v.outer with
  | .ok r => ({ v with view := r }, .ok ())
  | .error e => (v, .error e)

/-- `View::resize_outer` from `geom/view.rs`.  The view rectangle is kept
if it still fits in the new outer rectangle and is replaced by the new
outer rectangle otherwise; either way it is then clamped into the new
outer rectangle.  The `unwrap` in the source is safe because the chosen
view never exceeds the outer in either dimension, so we use the total
non-error branch `Rect.clampShift` directly. -/
def View.resize_outer (v : View) (outer : Rect) : View :=
  let view := if outer.w < v.view.w || outer.h < v.view.h then outer else v.view
  ⟨Rect.clampShift view outer, outer⟩

/-! ## Outcome (`src/canopy/src/outcome.rs`) -/

/-- `Outcome` from `outcome.rs`: the result of an event handler, either
`Handle` or `Ignore`, each carrying a `skip` flag. -/
inductive Outcome where
  | handle (skip : Bool)
  | ignore (skip : Bool)
deriving Repr, DecidableEq

/-- `Outcome::has_skip` from `outcome.rs`. -/
def Outcome.has_skip : Outcome → Bool
  | .handle s => s
  | .ignore s => s

/-- `Outcome::is_handled` from `outcome.rs`. -/
def Outcome.is_handled : Outcome → Bool
  | .handle _ => true
  | .ignore _ => false

/-- `Walker::join` for `Outcome` from `outcome.rs`, translated arm by arm.
Note the `(Ignore, Handle)` arm of the source: it computes
`ret.skip = h.skip || ign.skip` into a local `ret` but then returns
`Outcome::Handle(h)` — the original right operand — so the left operand's
skip flag is dropped.  The translation reproduces this faithfully. -/
def Outcome.join : Outcome → Outcome → Outcome
  | .handle s1, .handle s2 => .handle (s1 || s2)
  | .handle s1, .ignore s2 => .handle (s1 || s2)
  | .ignore _, .handle s2 => .handle s2
  | .ignore s1, .ignore s2 => .ignore (s1 || s2)

/-! ## Theorems for the Outcome and View claims -/

/-- Claim C1: for any two outcomes, `join` yields `Handle` if at least one
operand is `Handle`, and the skip flag of the result is the disjunction of
the operands' skip flags.  This FAILS on the code: at the concrete input
`a = Ignore { skip: true }`, `b = Handle { skip: false }` the source
returns `Handle { skip: false }`, dropping `a`'s skip flag (the or'd skip
is computed into a dead local `ret` and never returned), while the claim
requires the result's skip flag to be true. -/
theorem outcome_join_drops_ignore_skip :
    (Outcome.ignore true).join (Outcome.handle false) = Outcome.handle false ∧
      ((Outcome.ignore true).join (Outcome.handle false)).has_skip = false ∧
      ((Outcome.ignore true).has_skip || (Outcome.handle false).has_skip) = true := by
  decide

/-- Claim C8: for the view built from outer `(0,0,100,100)` and view
`(50,50,10,10)`, `set_inner ((110,110,20,20))` succeeds and yields the
view rectangle `(80,80,20,20)`: the inner rectangle is shifted minimally
into the outer rectangle with its size preserved. -/
theorem view_set_inner_clamps :
    View.new (Rect.new 0 0 100 100) (Rect.new 50 50 10 10) =
        .ok ⟨Rect.new 50 50 10 10, Rect.new 0 0 100 100⟩ ∧
      View.set_inner ⟨Rect.new 50 50 10 10, Rect.new 0 0 100 100⟩ (Rect.new 110 110 20 20) =
        .ok ⟨Rect.new 80 80 20 20, Rect.new 0 0 100 100⟩ :=
  ⟨rfl, rfl⟩

/-- Claim C9, counterexample: `resize_outer` to a smaller outer rectangle
does NOT in general leave the view at origin `(0,0)`.  For the legally
constructed view with outer `(0,0,100,100)` and view `(50,50,10,10)`,
resizing the outer to `(5,5,3,3)` (both dimensions smaller than the view)
produces the view `(5,5,3,3)`, whose top-left corner is not the origin. -/
theorem view_resize_outer_not_origin :
    View.new (Rect.new 0 0 100 100) (Rect.new 50 50 10 10) =
        .ok ⟨Rect.new 50 50 10 10, Rect.new 0 0 100 100⟩ ∧
      (View.resize_outer ⟨Rect.new 50 50 10 10, Rect.new 0 0 100 100⟩
          (Rect.new 5 5 3 3)).view = Rect.new 5 5 3 3 ∧
      (View.resize_outer ⟨Rect.new 50 50 10 10, Rect.new 0 0 100 100⟩
          (Rect.new 5 5 3 3)).view.tl.x ≠ 0 :=
  ⟨rfl, rfl, by decide⟩

/-- Claim C9 as amended: for every view, resizing the outer rectangle to
one whose width or height is smaller than the current view rectangle's
forces the view rectangle to become exactly the new outer rectangle (and
hence to sit at the origin exactly when the new outer rectangle does). -/
theorem view_resize_outer_shrinks (v : View) (outer : Rect)
    (h : outer.w < v.view.w ∨ outer.h < v.view.h) :
    (v.resize_outer outer).view = outer ∧ (v.resize_outer outer).outer = outer := by
  have hc : (outer.w < v.view.w || outer.h < v.view.h) = true := by
    rcases h with h | h <;> simp [h]
  refine ⟨?_, rfl⟩
  simp only [View.resize_outer, hc, if_true, Rect.clampShift]
  have hx : min (max outer.tl.x outer.tl.x) (outer.tl.x + outer.w - outer.w) = outer.tl.x := by
    omega
  have hy : min (max outer.tl.y outer.tl.y) (outer.tl.y + outer.h - outer.h) = outer.tl.y := by
    omega
  cases outer with
  | mk tl w h => cases tl; simp_all

/-- Witness for `view_resize_outer_shrinks` at outer `(0,0,5,5)`. -/
theorem view_resize_outer_shrinks_witness :
    ((5 : Nat) < 10 ∨ (5 : Nat) < 10) ∧
      (View.resize_outer ⟨Rect.new 50 50 10 10, Rect.new 0 0 100 100⟩
          (Rect.new 0 0 5 5)).view = Rect.new 0 0 5 5 :=
  ⟨Or.inl (by decide),
    (view_resize_outer_shrinks ⟨Rect.new 50 50 10 10, Rect.new 0 0 100 100⟩
      (Rect.new 0 0 5 5) (Or.inl (by decide))).1⟩

/-- Claim C10: if `set_inner` returns an error (the inner rectangle is
larger than the outer rectangle in some dimension), the view is left
unchanged: both its view rectangle and its outer rectangle keep their
previous values.  The early return of the `?` operator in
`self.view = inner.clamp(self.outer)?` leaves the receiver untouched. -/
theorem view_set_inner_error_unchanged (v : View) (inner : Rect)
    (h : (v.set_inner_state inner).2.isOk = false) :
    (v.set_inner_state inner).1 = v := by
  unfold View.set_inner_state at h ⊢
  cases hc : inner.clamp v.outer with
  | ok r => simp [hc, Except.isOk, Except.toBool] at h
  | error e => simp [hc]

/-- Witness for `view_set_inner_error_unchanged`: the oversized inner
rectangle `(0,0,190,190)` from the source's own test `view_set_inner`. -/
theorem view_set_inner_error_unchanged_witness :
    ((View.mk (Rect.new 50 50 10 10) (Rect.new 0 0 100 100)).set_inner_state
        (Rect.new 0 0 190 190)).2.isOk = false ∧
      ((View.mk (Rect.new 50 50 10 10) (Rect.new 0 0 100 100)).set_inner_state
        (Rect.new 0 0 190 190)).1 = View.mk (Rect.new 50 50 10 10) (Rect.new 0 0 100 100) :=
  ⟨by decide,
    view_set_inner_error_unchanged
      (View.mk (Rect.new 50 50 10 10) (Rect.new 0 0 100 100))
      (Rect.new 0 0 190 190) (by decide)⟩

/-! ## The node tree

The Rust node tree is a heterogeneous trait-object tree; every node owns a
`NodeState` (identity, `focus_gen`, hidden flag) and answers `name()` and
`accept_focus()`.  We embed the data relevant to the traversal and focus
claims as a rose tree of per-node records.  Child iteration order is the
declared list order, matching `children`/`children_mut`. -/

namespace Canopy

/-- The per-node state visible to the traversal and focus subsystem:
the node's name, its `NodeState.focus_gen` stamp, its `NodeState.hidden`
flag, and whether the widget's `accept_focus` override answers true. -/
structure NodeData where
  name : String
  focusGen : Nat
  hidden : Bool
  accept : Bool
deriving Repr, DecidableEq

/-- A node tree: a node record together with its children in declared
order. -/
inductive NTree where
  | node (d : NodeData) (cs : List NTree)
deriving Repr

/-- Modelled from the spec: the `accept_focus` answer of a node as seen
through the `Node` trait object.  The trait definition of the commit
matching `focus.rs` is not under `src/`; per §4.3 of the spec, hidden
nodes "are treated as opaque to `accept_focus`", so the call answers
false for a hidden node and the widget's own flag otherwise. -/
def NodeData.accept_focus (d : NodeData) : Bool :=
  !d.hidden && d.accept

/-- Erase the focus stamp of a node record, keeping its identity-relevant
fields (name, hidden, accept).  Focus operations only ever rewrite
`focusGen`, so two states of one tree agree under `stripGen`. -/
def NodeData.stripGen (d : NodeData) : NodeData :=
  { d with focusGen := 0 }

mutual
/-- The preorder listing of all node records of a tree: the node itself,
then its children's listings in declared order. -/
def flatten : NTree → List NodeData
  | .node d cs => d :: flattenL cs
/-- The preorder listing of a forest. -/
def flattenL : List NTree → List NodeData
  | [] => []
  | t :: ts => flatten t ++ flattenL ts
end

/-- Modelled from the spec: the `Walk` signal returned by traversal
visitors in the commit matching `focus.rs` (its `node.rs` is not under
`src/`).  `skip` tells the traversal to stop descending (§4.2); it plays
the role of `Walker::skip` in the `node.rs` that is in the snapshot. -/
inductive Walk where
  | cont
  | skip
deriving Repr, DecidableEq

/-- Does this walk signal request skipping? -/
def Walk.isSkip : Walk → Bool
  | .skip => true
  | .cont => false

mutual
/-- `preorder` from `src/canopy/src/node.rs`: visit a node, then — unless
the visitor signalled skip on that node — its children in declared order,
recursively.  The Rust `FnMut` visitor mutating nodes through `&mut dyn
Node` is embedded as a function from visitor state and node record to new
state, new record and walk signal. -/
def preorderGo (f : σ → NodeData → σ × NodeData × Walk) : σ → NTree → σ × NTree
  | s, .node d cs =>
    let r := f s d
    if r.2.2.isSkip then (r.1, .node r.2.1 cs)
    else
      let rl := preorderGoL f r.1 cs
      (rl.1, .node r.2.1 rl.2)
/-- Preorder visit of a forest, left to right. -/
def preorderGoL (f : σ → NodeData → σ × NodeData × Walk) : σ → List NTree → σ × List NTree
  | s, [] => (s, [])
  | s, t :: ts =>
    let r := preorderGo f s t
    let rl := preorderGoL f r.1 ts
    (rl.1, r.2 :: rl.2)
end

mutual
/-- `postorder` from `src/canopy/src/node.rs`: visit the children first —
pruning the remaining children once the accumulated walk signal requests
skip — then always the node itself, joining its signal in (join of two
walk signals is skip when either is, matching `Walker::join` for the
skip-only accumulator).  The focus `walk` uses a read-only visitor, so
node records are not rewritten here. -/
def postorderGo (f : σ → NodeData → σ × Walk) : σ → NTree → σ × Walk
  | s, .node d cs =>
    let r := postorderGoL f s cs .cont
    let r2 := f r.1 d
    (r2.1, if r.2.isSkip || r2.2.isSkip then .skip else .cont)
/-- Postorder visit of a forest with the accumulated walk signal. -/
def postorderGoL (f : σ → NodeData → σ × Walk) : σ → List NTree → Walk → σ × Walk
  | s, [], v => (s, v)
  | s, t :: ts, v =>
    if v.isSkip then (s, v)
    else
      let r := postorderGo f s t
      postorderGoL f r.1 ts (if v.isSkip || r.2.isSkip then .skip else .cont)
end

/-! ### The focus subsystem (`src/canopy/src/focus.rs`)

The global `focus_gen` counter of `global.rs` (initialised to 1) is
threaded explicitly: each operation takes the current counter and the
tree and returns both updated.  `StatefulNode::set_focus` is not under
`src/`; per §4.3 it bumps the global counter and stamps only the target
node with the new value, which is inlined below wherever the source calls
`x.set_focus()`. -/

/-- Visitor state of `shift_first`: the global counter and the captured
`focus_set` flag. -/
structure SfSt where
  gen : Nat
  focusSet : Bool
deriving Repr, DecidableEq

/-- The closure of `shift_first`: focus the first node that accepts focus
and skip its subtree. -/
def shiftFirstStep : SfSt → NodeData → SfSt × NodeData × Walk :=
  fun s d =>
    if !s.focusSet && d.accept_focus then
      (⟨s.gen + 1, true⟩, { d with focusGen := s.gen + 1 }, .skip)
    else (s, d, .cont)

/-- `shift_first` from `focus.rs`: preorder search for the first node
accepting focus; focus it. -/
def shift_first (g : Nat) (t : NTree) : Nat × NTree :=
  let r := preorderGo shiftFirstStep ⟨g, false⟩ t
  (r.1.gen, r.2)

/-- Visitor state of `shift_next`: the global counter and the captured
`focus_set` and `focus_seen` flags. -/
structure SnSt where
  gen : Nat
  focusSet : Bool
  focusSeen : Bool
deriving Repr, DecidableEq

/-- The closure of `shift_next`: after passing the currently focused node,
focus the next node that accepts focus.  `x.is_focused()` compares the
node's stamp against the current global counter. -/
def shiftNextStep : SnSt → NodeData → SnSt × NodeData × Walk :=
  fun s d =>
    if s.focusSet then (s, d, .cont)
    else if s.focusSeen then
      if d.accept_focus then
        (⟨s.gen + 1, true, true⟩, { d with focusGen := s.gen + 1 }, .cont)
      else (s, d, .cont)
    else if d.focusGen == s.gen then ({ s with focusSeen := true }, d, .cont)
    else (s, d, .cont)

/-- `shift_next` from `focus.rs`: preorder search from the currently
focused node for the next focusable node; if none was focused after the
sweep, fall back to `shift_first`. -/
def shift_next (g : Nat) (t : NTree) : Nat × NTree :=
  let r := preorderGo shiftNextStep ⟨g, false, false⟩ t
  if !r.1.focusSet then shift_first r.1.gen r.2 else (r.1.gen, r.2)

/-- Visitor state of `shift_prev`: the global counter, the captured value
`current` of the counter at entry, and the `focus_seen` and `first`
flags. -/
structure SpSt where
  gen : Nat
  current : Nat
  focusSeen : Bool
  first : Bool
deriving Repr, DecidableEq

/-- The closure of `shift_prev`: skip the first node of the traversal,
then stamp every focusable node until the node holding focus (stamp equal
to the captured `current`) is reached. -/
def shiftPrevStep : SpSt → NodeData → SpSt × NodeData × Walk :=
  fun s d =>
    if s.first then ({ s with first := false }, d, .cont)
    else if s.focusSeen then (s, d, .cont)
    else if d.focusGen == s.current then ({ s with focusSeen := true }, d, .cont)
    else if d.accept_focus then
      ({ s with gen := s.gen + 1 }, { d with focusGen := s.gen + 1 }, .cont)
    else (s, d, .cont)

/-- `shift_prev` from `focus.rs`. -/
def shift_prev (g : Nat) (t : NTree) : Nat × NTree :=
  let r := preorderGo shiftPrevStep ⟨g, g, false, true⟩ t
  (r.1.gen, r.2)

/-- Visitor state for stamping the node at a given preorder position. -/
structure SetSt where
  gen : Nat
  cnt : Nat
  target : Nat
deriving Repr, DecidableEq

/-- Visitor stamping the node at preorder position `target`. -/
def setFocusStep : SetSt → NodeData → SetSt × NodeData × Walk :=
  fun s d =>
    if s.cnt == s.target then
      (⟨s.gen + 1, s.cnt + 1, s.target⟩, { d with focusGen := s.gen + 1 }, .cont)
    else (⟨s.gen, s.cnt + 1, s.target⟩, d, .cont)

/-- Modelled from the spec: `set_focus` on the node at preorder position
`i` (`StatefulNode::set_focus` is not under `src/`).  Per §4.3 it bumps
the global counter and stamps only the target node with the new value; a
position past the end of the tree stamps nothing (a `&mut` receiver
always exists in the source, so that case never arises there). -/
def set_focus_idx (i g : Nat) (t : NTree) : Nat × NTree :=
  let r := preorderGo setFocusStep ⟨g, 0, i⟩ t
  (r.1.gen, r.2)

/-- Visitor state for the abstracted `shift_direction`. -/
structure DirSt where
  gen : Nat
  cnt : Nat
  target : Nat
  seen : Bool
deriving Repr, DecidableEq

/-- Visitor of the abstracted `shift_direction`: focus the candidate node
if it accepts focus and nothing has been focused yet in this search. -/
def shiftDirStep : DirSt → NodeData → DirSt × NodeData × Walk :=
  fun s d =>
    if s.cnt == s.target && !s.seen && d.accept_focus then
      (⟨s.gen + 1, s.cnt + 1, s.target, true⟩, { d with focusGen := s.gen + 1 }, .cont)
    else ({ s with cnt := s.cnt + 1 }, d, .cont)

/-- Modelled from the spec: `shift_direction` from `focus.rs` with its
geometric candidate search abstracted.  `Rect::search` and `locate` are
not under `src/`; the spatial search yields some candidate node, here
given by its preorder position `i`.  Faithful to §4.3 and to the `seen`
flag of the source: at most the first accepting candidate is stamped via
`set_focus`, and nothing changes when the search finds no focusable
node. -/
def shift_direction_abs (i g : Nat) (t : NTree) : Nat × NTree :=
  let r := preorderGo shiftDirStep ⟨g, 0, i, false⟩ t
  (r.1.gen, r.2)

/-- Visitor of the focus-path `walk` from `focus.rs`: before the focused
node is seen, hidden nodes and non-matching nodes are passed over; the
first non-hidden node whose stamp equals the current counter is the
focused node — the user callback runs on it and the walk signals skip —
and afterwards the callback runs on every node visited on the way back to
the root. -/
def walkStep (g : Nat) (h : α → NodeData → α) : (Bool × α) → NodeData → (Bool × α) × Walk :=
  fun s d =>
    if s.1 then ((s.1, h s.2 d), .cont)
    else if d.hidden then (s, .cont)
    else if d.focusGen == g then ((true, h s.2 d), .skip)
    else (s, .cont)

/-- `walk` from `focus.rs`: run a callback on the currently focused node
and all its ancestors up to the root, via the postorder traversal. -/
def focusWalk (g : Nat) (h : α → NodeData → α) (init : α) (t : NTree) : α :=
  ((postorderGo (walkStep g h) (false, init) t).1).2

/-- `path` from `focus.rs`: collect the names from the focused node to
the root, each new name inserted at the front, and join them with
slashes after a leading slash. -/
def path (g : Nat) (t : NTree) : String :=
  "/" ++ String.intercalate "/" (focusWalk g (fun acc d => d.name :: acc) [] t)

/-- A focus operation, for stating the single-focus invariant over
arbitrary operation sequences.  `setF` and `dir` carry the preorder
position of the target/candidate node. -/
inductive FocusOp where
  | setF (i : Nat)
  | first
  | next
  | prev
  | dir (i : Nat)
deriving Repr, DecidableEq

/-- Apply one focus operation to the global counter and the tree. -/
def applyOp : FocusOp → Nat × NTree → Nat × NTree
  | .setF i, p => set_focus_idx i p.1 p.2
  | .first, p => shift_first p.1 p.2
  | .next, p => shift_next p.1 p.2
  | .prev, p => shift_prev p.1 p.2
  | .dir i, p => shift_direction_abs i p.1 p.2

/-- Apply a sequence of focus operations in order. -/
def applyOps (ops : List FocusOp) (p : Nat × NTree) : Nat × NTree :=
  ops.foldl (fun q op => applyOp op q) p

end Canopy

namespace Canopy

/-! ### Proof machinery: mutual induction and flattening bridges -/

mutual
/-- Mutual induction for trees and forests (term-level recursor). -/
def indT (P : NTree → Prop) (Q : List NTree → Prop)
    (h1 : ∀ d cs, Q cs → P (.node d cs)) (h2 : Q [])
    (h3 : ∀ t ts, P t → Q ts → Q (t :: ts)) : ∀ t, P t
  | .node d cs => h1 d cs (indL P Q h1 h2 h3 cs)
/-- Mutual induction for forests. -/
def indL (P : NTree → Prop) (Q : List NTree → Prop)
    (h1 : ∀ d cs, Q cs → P (.node d cs)) (h2 : Q [])
    (h3 : ∀ t ts, P t → Q ts → Q (t :: ts)) : ∀ ts, Q ts
  | [] => h2
  | t :: ts => h3 t ts (indT P Q h1 h2 h3 t) (indL P Q h1 h2 h3 ts)
end

/-- The list-level counterpart of a preorder sweep whose visitor never
skips: thread the visitor through the flattened node sequence. -/
def mapAccumGo (f : σ → NodeData → σ × NodeData × Walk) : σ → List NodeData → σ × List NodeData
  | s, [] => (s, [])
  | s, d :: ds =>
    let r := f s d
    let rl := mapAccumGo f r.1 ds
    (rl.1, r.2.1 :: rl.2)

theorem mapAccumGo_append (f : σ → NodeData → σ × NodeData × Walk) :
    ∀ l1 l2 s, mapAccumGo f s (l1 ++ l2) =
      ((mapAccumGo f (mapAccumGo f s l1).1 l2).1,
        (mapAccumGo f s l1).2 ++ (mapAccumGo f (mapAccumGo f s l1).1 l2).2) := by
  intro l1
  induction l1 with
  | nil => intro l2 s; simp [mapAccumGo]
  | cons d ds ih => intro l2 s; simp [mapAccumGo, ih]

/-- A preorder sweep with a never-skipping visitor acts on the flattened
node sequence: both the final state and the flattened result agree with
the list-level sweep. -/
theorem preorderGo_noskip (f : σ → NodeData → σ × NodeData × Walk)
    (hf : ∀ s d, (f s d).2.2 = Walk.cont) :
    ∀ t s, (preorderGo f s t).1 = (mapAccumGo f s (flatten t)).1 ∧
      flatten (preorderGo f s t).2 = (mapAccumGo f s (flatten t)).2 := by
  refine indT
    (fun t => ∀ s, (preorderGo f s t).1 = (mapAccumGo f s (flatten t)).1 ∧
      flatten (preorderGo f s t).2 = (mapAccumGo f s (flatten t)).2)
    (fun ts => ∀ s, (preorderGoL f s ts).1 = (mapAccumGo f s (flattenL ts)).1 ∧
      flattenL (preorderGoL f s ts).2 = (mapAccumGo f s (flattenL ts)).2)
    ?_ ?_ ?_
  · intro d cs ihL s
    have hskip : ((f s d).2.2).isSkip = false := by rw [hf]; rfl
    have h1 := ihL (f s d).1
    simp only [preorderGo, flatten, mapAccumGo, hskip, Bool.false_eq_true, if_false]
    exact ⟨h1.1, by rw [h1.2]⟩
  · intro s; simp [preorderGoL, flattenL, mapAccumGo]
  · intro t ts ihT ihL s
    have h1 := ihT s
    have h2 := ihL (preorderGo f s t).1
    simp only [preorderGoL, flattenL]
    rw [mapAccumGo_append]
    refine ⟨?_, ?_⟩
    · rw [h2.1, h1.1]
    · rw [h2.2, h1.2, h1.1]

/-! ### List-level specification functions -/

/-- Stamp the first node accepting focus with generation `k`. -/
def stampFirstAcc (k : Nat) : List NodeData → List NodeData
  | [] => []
  | d :: ds =>
    if d.accept_focus then { d with focusGen := k } :: ds
    else d :: stampFirstAcc k ds

/-- Position of the first node accepting focus, if any. -/
def firstAcc : List NodeData → Option Nat
  | [] => none
  | d :: ds =>
    if d.accept_focus then some 0
    else (firstAcc ds).map (· + 1)

/-- Position of the first node whose stamp equals `g`, if any: the node
the focus subsystem regards as focused. -/
def firstFocused (g : Nat) : List NodeData → Option Nat
  | [] => none
  | d :: ds =>
    if d.focusGen == g then some 0
    else (firstFocused g ds).map (· + 1)

/-- Position of the last node accepting focus, if any. -/
def lastAcc : List NodeData → Option Nat
  | [] => none
  | d :: ds =>
    match lastAcc ds with
    | some i => some (i + 1)
    | none => if d.accept_focus then some 0 else none

theorem stampFirstAcc_append (k : Nat) :
    ∀ l1 l2, stampFirstAcc k (l1 ++ l2) =
      if l1.any (fun d => d.accept_focus) then stampFirstAcc k l1 ++ l2
      else l1 ++ stampFirstAcc k l2 := by
  intro l1
  induction l1 with
  | nil => intro l2; simp [stampFirstAcc]
  | cons d ds ih =>
    intro l2
    by_cases hd : d.accept_focus = true
    · simp [stampFirstAcc, hd]
    · rw [Bool.not_eq_true] at hd
      have hcons : stampFirstAcc k ((d :: ds) ++ l2) = d :: stampFirstAcc k (ds ++ l2) := by
        simp [stampFirstAcc, hd]
      rw [hcons, ih]
      simp only [List.any_cons, hd, Bool.false_or]
      split <;> rename_i h <;> simp [stampFirstAcc, hd, h]

theorem stampFirstAcc_no_acc (k : Nat) :
    ∀ l, l.any (fun d => d.accept_focus) = false → stampFirstAcc k l = l := by
  intro l
  induction l with
  | nil => intro h; rfl
  | cons d ds ih =>
    intro h
    simp only [List.any_cons, Bool.or_eq_false_iff] at h
    simp [stampFirstAcc, h.1, ih h.2]

/-! ### Characterization of `shift_first` -/

/-- The `shift_first` sweep, characterized: from a state with `focus_set`
already true it changes nothing, and from the initial state it stamps the
first node accepting focus in the flattened preorder sequence with the
bumped generation (and stamps nothing when no node accepts focus). -/
theorem shiftFirst_sweep :
    ∀ t, (∀ g, preorderGo shiftFirstStep ⟨g, true⟩ t = (⟨g, true⟩, t)) ∧
      (∀ g, (preorderGo shiftFirstStep ⟨g, false⟩ t).1 =
          (if (flatten t).any (fun d => d.accept_focus) then ⟨g + 1, true⟩ else ⟨g, false⟩) ∧
        flatten (preorderGo shiftFirstStep ⟨g, false⟩ t).2 = stampFirstAcc (g + 1) (flatten t)) := by
  refine indT
    (fun t => (∀ g, preorderGo shiftFirstStep ⟨g, true⟩ t = (⟨g, true⟩, t)) ∧
      (∀ g, (preorderGo shiftFirstStep ⟨g, false⟩ t).1 =
          (if (flatten t).any (fun d => d.accept_focus) then ⟨g + 1, true⟩ else ⟨g, false⟩) ∧
        flatten (preorderGo shiftFirstStep ⟨g, false⟩ t).2 = stampFirstAcc (g + 1) (flatten t)))
    (fun ts => (∀ g, preorderGoL shiftFirstStep ⟨g, true⟩ ts = (⟨g, true⟩, ts)) ∧
      (∀ g, (preorderGoL shiftFirstStep ⟨g, false⟩ ts).1 =
          (if (flattenL ts).any (fun d => d.accept_focus) then ⟨g + 1, true⟩ else ⟨g, false⟩) ∧
        flattenL (preorderGoL shiftFirstStep ⟨g, false⟩ ts).2 = stampFirstAcc (g + 1) (flattenL ts)))
    ?_ ?_ ?_
  · intro d cs ihL
    constructor
    · intro g
      have hstep : shiftFirstStep ⟨g, true⟩ d = (⟨g, true⟩, d, .cont) := by
        simp [shiftFirstStep]
      simp [preorderGo, hstep, Walk.isSkip, (ihL.1 g)]
    · intro g
      by_cases hd : d.accept_focus = true
      · have hstep : shiftFirstStep ⟨g, false⟩ d =
            (⟨g + 1, true⟩, { d with focusGen := g + 1 }, .skip) := by
          simp [shiftFirstStep, hd]
        simp [preorderGo, hstep, Walk.isSkip, flatten, stampFirstAcc, hd]
      · have hstep : shiftFirstStep ⟨g, false⟩ d = (⟨g, false⟩, d, .cont) := by
          simp [shiftFirstStep, hd]
        have h2 := ihL.2 g
        simp [preorderGo, hstep, Walk.isSkip, flatten, stampFirstAcc, hd, h2.1, h2.2]
  · exact ⟨fun g => rfl, fun g => ⟨rfl, rfl⟩⟩
  · intro t ts ihT ihL
    constructor
    · intro g
      simp [preorderGoL, (ihT.1 g), (ihL.1 g)]
    · intro g
      have h1 := ihT.2 g
      by_cases hany : (flatten t).any (fun d => d.accept_focus) = true
      · rw [hany, if_pos rfl] at h1
        simp only [preorderGoL, flattenL, h1.1]
        rw [(ihL.1 (g + 1))]
        rw [stampFirstAcc_append]
        simp [hany, h1.2]
      · rw [Bool.not_eq_true] at hany
        rw [hany] at h1
        simp only [Bool.false_eq_true, if_false] at h1
        have h2 := ihL.2 g
        simp only [preorderGoL, flattenL, h1.1]
        rw [stampFirstAcc_append]
        simp only [hany, Bool.false_eq_true, if_false]
        constructor
        · rw [h2.1]; simp [List.any_append, hany]
        · rw [h2.2, h1.2, stampFirstAcc_no_acc _ _ hany]

end Canopy

namespace Canopy

/-! ### List-level operations and their characterizations -/

/-- `shift_first` on the flattened node sequence: bump the counter when
some node accepts focus and stamp the first such node. -/
def shiftFirstL (g : Nat) (l : List NodeData) : Nat × List NodeData :=
  (if l.any (fun d => d.accept_focus) then g + 1 else g, stampFirstAcc (g + 1) l)

/-- `shift_next` on the flattened node sequence: the preorder sweep of
the `shift_next` closure followed, when it did not set focus, by the
`shift_first` fallback. -/
def shiftNextL (g : Nat) (l : List NodeData) : Nat × List NodeData :=
  let r := mapAccumGo shiftNextStep ⟨g, false, false⟩ l
  if !r.1.focusSet then shiftFirstL r.1.gen r.2 else (r.1.gen, r.2)

/-- `shift_first` acts on the flattened node sequence as `shiftFirstL`. -/
theorem shift_first_bridge (g : Nat) (t : NTree) :
    (shift_first g t).1 = (shiftFirstL g (flatten t)).1 ∧
      flatten (shift_first g t).2 = (shiftFirstL g (flatten t)).2 := by
  have h := (shiftFirst_sweep t).2 g
  simp only [shift_first, shiftFirstL]
  refine ⟨?_, h.2⟩
  rw [h.1]
  split <;> rfl

theorem shiftNextStep_noskip : ∀ s d, (shiftNextStep s d).2.2 = Walk.cont := by
  intro s d
  unfold shiftNextStep
  split
  · rfl
  · split
    · split <;> rfl
    · split <;> rfl

/-- `shift_next` acts on the flattened node sequence as `shiftNextL`. -/
theorem shift_next_bridge (g : Nat) (t : NTree) :
    (shift_next g t).1 = (shiftNextL g (flatten t)).1 ∧
      flatten (shift_next g t).2 = (shiftNextL g (flatten t)).2 := by
  have hb := preorderGo_noskip shiftNextStep shiftNextStep_noskip t ⟨g, false, false⟩
  simp only [shift_next, shiftNextL, hb.1]
  by_cases hset : (mapAccumGo shiftNextStep ⟨g, false, false⟩ (flatten t)).1.focusSet = true
  · simp only [hset, Bool.not_true, Bool.false_eq_true, if_false]
    exact ⟨by trivial, hb.2⟩
  · rw [Bool.not_eq_true] at hset
    simp only [hset, Bool.not_false, if_true]
    have hf := shift_first_bridge
      (mapAccumGo shiftNextStep ⟨g, false, false⟩ (flatten t)).1.gen
      (preorderGo shiftNextStep ⟨g, false, false⟩ t).2
    rw [hb.2] at hf
    exact hf

/-- The `shift_next` sweep from a state with focus already set changes
nothing. -/
theorem snSweep_done : ∀ (l : List NodeData) (g : Nat) (b : Bool),
    mapAccumGo shiftNextStep ⟨g, true, b⟩ l = (⟨g, true, b⟩, l) := by
  intro l
  induction l with
  | nil => intro g b; rfl
  | cons d ds ih =>
    intro g b
    have hstep : shiftNextStep ⟨g, true, b⟩ d = (⟨g, true, b⟩, d, .cont) := by
      simp [shiftNextStep]
    simp [mapAccumGo, hstep, ih]

/-- The `shift_next` sweep from the state where the focused node has been
seen stamps the first node accepting focus. -/
theorem snSweep_seen : ∀ (l : List NodeData) (g : Nat),
    mapAccumGo shiftNextStep ⟨g, false, true⟩ l =
      (if l.any (fun d => d.accept_focus) then ⟨g + 1, true, true⟩ else ⟨g, false, true⟩,
        stampFirstAcc (g + 1) l) := by
  intro l
  induction l with
  | nil => intro g; rfl
  | cons d ds ih =>
    intro g
    by_cases hd : d.accept_focus = true
    · have hstep : shiftNextStep ⟨g, false, true⟩ d =
          (⟨g + 1, true, true⟩, { d with focusGen := g + 1 }, .cont) := by
        simp [shiftNextStep, hd]
      simp [mapAccumGo, hstep, snSweep_done, stampFirstAcc, hd]
    · rw [Bool.not_eq_true] at hd
      have hstep : shiftNextStep ⟨g, false, true⟩ d = (⟨g, false, true⟩, d, .cont) := by
        simp [shiftNextStep, hd]
      simp [mapAccumGo, hstep, ih, stampFirstAcc, hd]

/-- The `shift_next` sweep from the initial state passes over a sequence
containing no focused node without any change. -/
theorem snSweep_nopivot : ∀ (l : List NodeData) (g : Nat),
    (∀ d ∈ l, (d.focusGen == g) = false) →
    mapAccumGo shiftNextStep ⟨g, false, false⟩ l = (⟨g, false, false⟩, l) := by
  intro l
  induction l with
  | nil => intro g _; rfl
  | cons d ds ih =>
    intro g h
    have hd := h d (List.mem_cons_self d ds)
    have hstep : shiftNextStep ⟨g, false, false⟩ d = (⟨g, false, false⟩, d, .cont) := by
      simp only [shiftNextStep]
      simp [hd]
    have hds : ∀ e ∈ ds, (e.focusGen == g) = false := fun e he => h e (List.mem_cons_of_mem d he)
    simp [mapAccumGo, hstep, ih g hds]

/-- The `shift_next` sweep from the initial state, on a sequence split at
the first focused node: the prefix and the pivot pass unchanged, and the
first node accepting focus after the pivot is stamped. -/
theorem snSweep_pivot : ∀ (u : List NodeData) (p : NodeData) (v : List NodeData) (g : Nat),
    (∀ d ∈ u, (d.focusGen == g) = false) → (p.focusGen == g) = true →
    mapAccumGo shiftNextStep ⟨g, false, false⟩ (u ++ p :: v) =
      (if v.any (fun d => d.accept_focus) then ⟨g + 1, true, true⟩ else ⟨g, false, true⟩,
        u ++ p :: stampFirstAcc (g + 1) v) := by
  intro u
  induction u with
  | nil =>
    intro p v g _ hp
    have hstep : shiftNextStep ⟨g, false, false⟩ p = (⟨g, false, true⟩, p, .cont) := by
      simp only [shiftNextStep]
      simp [hp]
    simp [mapAccumGo, hstep, snSweep_seen]
  | cons d ds ih =>
    intro p v g h hp
    have hd := h d (List.mem_cons_self d ds)
    have hstep : shiftNextStep ⟨g, false, false⟩ d = (⟨g, false, false⟩, d, .cont) := by
      simp only [shiftNextStep]
      simp [hd]
    have hds : ∀ e ∈ ds, (e.focusGen == g) = false := fun e he => h e (List.mem_cons_of_mem d he)
    simp [mapAccumGo, hstep, ih p v g hds hp]

end Canopy

namespace Canopy

/-! ### Facts about `stampFirstAcc` and the generic stamping discipline -/

/-- A node answering `accept_focus` is not hidden. -/
theorem accept_focus_not_hidden (d : NodeData) (h : d.accept_focus = true) :
    d.hidden = false := by
  unfold NodeData.accept_focus at h
  cases hh : d.hidden with
  | false => rfl
  | true => rw [hh] at h; simp at h

theorem stampFirstAcc_facts (k g : Nat) (hk : g < k) :
    ∀ l, (∀ d ∈ l, d.focusGen ≤ g) →
      (∀ d ∈ stampFirstAcc k l, d.focusGen ≤ k) ∧
      ((stampFirstAcc k l).countP (fun d => d.focusGen == k) =
        if l.any (fun d => d.accept_focus) then 1 else 0) ∧
      (∀ e ∈ stampFirstAcc k l, e ∈ l ∨ e.accept_focus = true) ∧
      ((stampFirstAcc k l).map NodeData.stripGen = l.map NodeData.stripGen) ∧
      (l.any (fun d => d.accept_focus) = true →
        firstFocused k (stampFirstAcc k l) = firstAcc l) := by
  intro l
  induction l with
  | nil =>
    intro _
    refine ⟨?_, ?_, ?_, ?_, ?_⟩ <;> simp [stampFirstAcc, firstFocused, firstAcc]
  | cons d ds ih =>
    intro hb
    have hdb : d.focusGen ≤ g := hb d (List.mem_cons_self d ds)
    have hdsb : ∀ e ∈ ds, e.focusGen ≤ g := fun e he => hb e (List.mem_cons_of_mem d he)
    have ihds := ih hdsb
    by_cases hd : d.accept_focus = true
    · simp only [stampFirstAcc, hd, if_true]
      refine ⟨?_, ?_, ?_, ?_, ?_⟩
      · intro e he
        rcases List.mem_cons.1 he with he | he
        · rw [he]
        · exact le_of_lt (lt_of_le_of_lt (hdsb e he) hk)
      · have hz : ds.countP (fun e => e.focusGen == k) = 0 := by
          rw [List.countP_eq_zero]
          intro e he
          have := hdsb e he
          simp only [beq_iff_eq]
          omega
        simp [List.countP_cons, hz, hd]
      · intro e he
        rcases List.mem_cons.1 he with he | he
        · right; rw [he]; exact hd
        · left; exact List.mem_cons_of_mem d he
      · simp [NodeData.stripGen]
      · intro _
        simp [firstFocused, firstAcc, hd]
    · rw [Bool.not_eq_true] at hd
      simp only [stampFirstAcc, hd, Bool.false_eq_true, if_false]
      have hdk : (d.focusGen == k) = false := by
        simp only [beq_eq_false_iff_ne]
        omega
      refine ⟨?_, ?_, ?_, ?_, ?_⟩
      · intro e he
        rcases List.mem_cons.1 he with he | he
        · rw [he]; omega
        · exact (ihds.1 e he)
      · simp [List.countP_cons, hdk, ihds.2.1, List.any_cons, hd]
      · intro e he
        rcases List.mem_cons.1 he with he | he
        · left; rw [he]; exact List.mem_cons_self d ds
        · rcases ihds.2.2.1 e he with h2 | h2
          · left; exact List.mem_cons_of_mem d h2
          · right; exact h2
      · simp only [List.map_cons, ihds.2.2.2.1]
      · intro hany
        rw [List.any_cons, hd, Bool.false_or] at hany
        simp [firstFocused, firstAcc, hd, hdk, ihds.2.2.2.2 hany]

/-- The five stamping facts for `shiftFirstL`: counter monotone, stamps
bounded by the new counter, at most one node carrying the new counter
value, identity when the counter did not move, and every node either
original or accepting focus. -/
theorem shiftFirstL_facts (g : Nat) (l : List NodeData)
    (hb : ∀ d ∈ l, d.focusGen ≤ g) (hc : l.countP (fun d => d.focusGen == g) ≤ 1) :
    g ≤ (shiftFirstL g l).1 ∧
    (∀ d ∈ (shiftFirstL g l).2, d.focusGen ≤ (shiftFirstL g l).1) ∧
    ((shiftFirstL g l).2.countP (fun d => d.focusGen == (shiftFirstL g l).1) ≤ 1) ∧
    ((shiftFirstL g l).1 = g → (shiftFirstL g l).2 = l) ∧
    (∀ e ∈ (shiftFirstL g l).2, e ∈ l ∨ e.accept_focus = true) := by
  have hfacts := stampFirstAcc_facts (g + 1) g (Nat.lt_succ_self g) l hb
  by_cases hany : l.any (fun d => d.accept_focus) = true
  · simp only [shiftFirstL, hany, if_true]
    refine ⟨Nat.le_succ g, hfacts.1, ?_, ?_, hfacts.2.2.1⟩
    · rw [hfacts.2.1, hany]; simp
    · intro h; omega
  · rw [Bool.not_eq_true] at hany
    have h1 : shiftFirstL g l = (g, l) := by
      simp only [shiftFirstL, hany, Bool.false_eq_true, if_false,
        stampFirstAcc_no_acc _ _ hany]
    rw [h1]
    exact ⟨le_refl g, hb, hc, fun _ => rfl, fun e he => Or.inl he⟩

/-- Generic stamping discipline for never-skipping visitors: if each step
either leaves the node and the counter alone or bumps the counter and
stamps exactly the visited node with the new value — and then only nodes
satisfying `P` (a predicate ignoring the stamp) — the sweep keeps every
stamp bounded by the counter, keeps at most one node carrying the final
counter value, changes nothing when the counter did not move, and
produces only original or `P`-satisfying nodes. -/
theorem mapAccum_stamp (f : σ → NodeData → σ × NodeData × Walk) (gOf : σ → Nat)
    (P : NodeData → Bool) (hP : ∀ d k, P { d with focusGen := k } = P d)
    (hf : ∀ s d, (gOf (f s d).1 = gOf s ∧ (f s d).2.1 = d) ∨
      (gOf (f s d).1 = gOf s + 1 ∧ (f s d).2.1 = { d with focusGen := gOf s + 1 } ∧ P d = true)) :
    ∀ l s, (∀ d ∈ l, d.focusGen ≤ gOf s) → l.countP (fun d => d.focusGen == gOf s) ≤ 1 →
      gOf s ≤ gOf (mapAccumGo f s l).1 ∧
      (∀ d ∈ (mapAccumGo f s l).2, d.focusGen ≤ gOf (mapAccumGo f s l).1) ∧
      ((mapAccumGo f s l).2.countP (fun d => d.focusGen == gOf (mapAccumGo f s l).1) ≤ 1) ∧
      (gOf (mapAccumGo f s l).1 = gOf s → (mapAccumGo f s l).2 = l) ∧
      (∀ e ∈ (mapAccumGo f s l).2, e ∈ l ∨ P e = true) := by
  intro l
  induction l with
  | nil =>
    intro s _ _
    exact ⟨le_refl _, by simp [mapAccumGo], by simp [mapAccumGo], fun _ => rfl,
      by simp [mapAccumGo]⟩
  | cons d ds ih =>
    intro s hb hc
    have hdb : d.focusGen ≤ gOf s := hb d (List.mem_cons_self d ds)
    have hdsb : ∀ e ∈ ds, e.focusGen ≤ gOf s := fun e he => hb e (List.mem_cons_of_mem d he)
    have hunfold : mapAccumGo f s (d :: ds) =
        ((mapAccumGo f (f s d).1 ds).1, (f s d).2.1 :: (mapAccumGo f (f s d).1 ds).2) := rfl
    rcases hf s d with ⟨hg, hd⟩ | ⟨hg, hd, hPd⟩
    · -- the step left the node and the counter unchanged
      have hbds : ∀ e ∈ ds, e.focusGen ≤ gOf (f s d).1 := by rw [hg]; exact hdsb
      have hcds : ds.countP (fun e => e.focusGen == gOf (f s d).1) ≤ 1 := by
        rw [hg]
        have := hc
        rw [List.countP_cons] at this
        omega
      have ihds := ih (f s d).1 hbds hcds
      rw [hunfold]
      set G := gOf (mapAccumGo f (f s d).1 ds).1 with hG
      have hmono : gOf s ≤ G := hg ▸ ihds.1
      refine ⟨hmono, ?_, ?_, ?_, ?_⟩
      · intro e he
        rcases List.mem_cons.1 he with he | he
        · rw [he, hd]; omega
        · exact ihds.2.1 e he
      · rcases Nat.lt_or_ge (gOf s) G with hlt | hge
        · have hne : ((f s d).2.1.focusGen == G) = false := by
            rw [hd]
            simp only [beq_eq_false_iff_ne]
            omega
          rw [List.countP_cons, hne]
          simpa using ihds.2.2.1
        · have heq : G = gOf s := le_antisymm hge hmono
          have hsame := ihds.2.2.2.1 (by rw [← hg] at heq; exact heq)
          rw [hsame, hd, heq]
          exact hc
      · intro hGs
        have hsame := ihds.2.2.2.1 (by rw [← hg] at hGs; exact hGs)
        rw [hsame, hd]
      · intro e he
        rcases List.mem_cons.1 he with he | he
        · left; rw [he, hd]; exact List.mem_cons_self d ds
        · rcases ihds.2.2.2.2 e he with h2 | h2
          · left; exact List.mem_cons_of_mem d h2
          · right; exact h2
    · -- the step bumped the counter and stamped the node
      have hbds : ∀ e ∈ ds, e.focusGen ≤ gOf (f s d).1 := by
        rw [hg]; intro e he; exact Nat.le_succ_of_le (hdsb e he)
      have hcds : ds.countP (fun e => e.focusGen == gOf (f s d).1) ≤ 1 := by
        rw [hg]
        have hz : ds.countP (fun e => e.focusGen == gOf s + 1) = 0 := by
          rw [List.countP_eq_zero]
          intro e he
          have := hdsb e he
          simp only [beq_iff_eq]
          omega
        omega
      have ihds := ih (f s d).1 hbds hcds
      rw [hunfold]
      set G := gOf (mapAccumGo f (f s d).1 ds).1 with hG
      have hmono1 : gOf s + 1 ≤ G := hg ▸ ihds.1
      refine ⟨Nat.le_of_succ_le hmono1, ?_, ?_, ?_, ?_⟩
      · intro e he
        rcases List.mem_cons.1 he with he | he
        · rw [he, hd]; exact hmono1
        · exact ihds.2.1 e he
      · rcases Nat.lt_or_ge (gOf s + 1) G with hlt | hge
        · have hne : ((f s d).2.1.focusGen == G) = false := by
            rw [hd]
            simp only [beq_eq_false_iff_ne]
            omega
          rw [List.countP_cons, hne]
          simpa using ihds.2.2.1
        · have heq : G = gOf s + 1 := le_antisymm hge hmono1
          have hsame := ihds.2.2.2.1 (by rw [← hg] at heq; exact heq)
          have hyes : ((f s d).2.1.focusGen == G) = true := by
            rw [hd, heq]; simp
          have hz : ds.countP (fun e => e.focusGen == G) = 0 := by
            rw [List.countP_eq_zero]
            intro e he
            have := hdsb e he
            simp only [beq_iff_eq]
            omega
          rw [List.countP_cons, hyes, hsame, hz]
          simp
      · intro hGs
        omega
      · intro e he
        rcases List.mem_cons.1 he with he | he
        · right; rw [he, hd, hP]; exact hPd
        · rcases ihds.2.2.2.2 e he with h2 | h2
          · left; exact List.mem_cons_of_mem d h2
          · right; exact h2

end Canopy

namespace Canopy

/-! ### Per-visitor instantiations of the stamping discipline -/

theorem shiftPrevStep_noskip : ∀ s d, (shiftPrevStep s d).2.2 = Walk.cont := by
  intro s d
  unfold shiftPrevStep
  split
  · rfl
  · split
    · rfl
    · split
      · rfl
      · split <;> rfl

theorem setFocusStep_noskip : ∀ s d, (setFocusStep s d).2.2 = Walk.cont := by
  intro s d
  unfold setFocusStep
  split <;> rfl

theorem shiftDirStep_noskip : ∀ s d, (shiftDirStep s d).2.2 = Walk.cont := by
  intro s d
  unfold shiftDirStep
  split <;> rfl

theorem shiftNextStep_hf : ∀ (s : SnSt) (d : NodeData),
    ((shiftNextStep s d).1.gen = s.gen ∧ (shiftNextStep s d).2.1 = d) ∨
    ((shiftNextStep s d).1.gen = s.gen + 1 ∧
      (shiftNextStep s d).2.1 = { d with focusGen := s.gen + 1 } ∧ d.accept_focus = true) := by
  intro s d
  unfold shiftNextStep
  split
  · exact Or.inl ⟨rfl, rfl⟩
  · split
    · split
      · rename_i hacc
        exact Or.inr ⟨rfl, rfl, hacc⟩
      · exact Or.inl ⟨rfl, rfl⟩
    · split
      · exact Or.inl ⟨rfl, rfl⟩
      · exact Or.inl ⟨rfl, rfl⟩

theorem shiftPrevStep_hf : ∀ (s : SpSt) (d : NodeData),
    ((shiftPrevStep s d).1.gen = s.gen ∧ (shiftPrevStep s d).2.1 = d) ∨
    ((shiftPrevStep s d).1.gen = s.gen + 1 ∧
      (shiftPrevStep s d).2.1 = { d with focusGen := s.gen + 1 } ∧ d.accept_focus = true) := by
  intro s d
  unfold shiftPrevStep
  split
  · exact Or.inl ⟨rfl, rfl⟩
  · split
    · exact Or.inl ⟨rfl, rfl⟩
    · split
      · exact Or.inl ⟨rfl, rfl⟩
      · split
        · rename_i hacc
          exact Or.inr ⟨rfl, rfl, hacc⟩
        · exact Or.inl ⟨rfl, rfl⟩

theorem setFocusStep_hf : ∀ (s : SetSt) (d : NodeData),
    ((setFocusStep s d).1.gen = s.gen ∧ (setFocusStep s d).2.1 = d) ∨
    ((setFocusStep s d).1.gen = s.gen + 1 ∧
      (setFocusStep s d).2.1 = { d with focusGen := s.gen + 1 } ∧ (true : Bool) = true) := by
  intro s d
  unfold setFocusStep
  split
  · exact Or.inr ⟨rfl, rfl, rfl⟩
  · exact Or.inl ⟨rfl, rfl⟩

theorem shiftDirStep_hf : ∀ (s : DirSt) (d : NodeData),
    ((shiftDirStep s d).1.gen = s.gen ∧ (shiftDirStep s d).2.1 = d) ∨
    ((shiftDirStep s d).1.gen = s.gen + 1 ∧
      (shiftDirStep s d).2.1 = { d with focusGen := s.gen + 1 } ∧ d.accept_focus = true) := by
  intro s d
  unfold shiftDirStep
  split
  · rename_i hcond
    rw [Bool.and_eq_true, Bool.and_eq_true] at hcond
    exact Or.inr ⟨rfl, rfl, hcond.2⟩
  · exact Or.inl ⟨rfl, rfl⟩

/-! ### Tree-level fact bundles for each focus operation -/

/-- The single-focus invariant on a flattened tree: every stamp is
bounded by the counter, and at most one node carries the counter value
(is focused). -/
def InvL (g : Nat) (l : List NodeData) : Prop :=
  (∀ d ∈ l, d.focusGen ≤ g) ∧ l.countP (fun d => d.focusGen == g) ≤ 1

theorem shift_first_facts (g : Nat) (t : NTree) (h : InvL g (flatten t)) :
    g ≤ (shift_first g t).1 ∧ InvL (shift_first g t).1 (flatten (shift_first g t).2) ∧
      (∀ e ∈ flatten (shift_first g t).2, e ∈ flatten t ∨ e.accept_focus = true) := by
  have hb := shift_first_bridge g t
  have hfacts := shiftFirstL_facts g (flatten t) h.1 h.2
  rw [hb.1, hb.2]
  exact ⟨hfacts.1, ⟨hfacts.2.1, hfacts.2.2.1⟩, hfacts.2.2.2.2⟩

theorem shift_next_facts (g : Nat) (t : NTree) (h : InvL g (flatten t)) :
    g ≤ (shift_next g t).1 ∧ InvL (shift_next g t).1 (flatten (shift_next g t).2) ∧
      (∀ e ∈ flatten (shift_next g t).2, e ∈ flatten t ∨ e.accept_focus = true) := by
  have hbr := preorderGo_noskip shiftNextStep shiftNextStep_noskip t ⟨g, false, false⟩
  have hph := mapAccum_stamp shiftNextStep (fun s => s.gen) (fun d => d.accept_focus)
    (fun d k => rfl) shiftNextStep_hf (flatten t) ⟨g, false, false⟩ h.1 h.2
  simp only [shift_next]
  by_cases hset : (preorderGo shiftNextStep ⟨g, false, false⟩ t).1.focusSet = true
  · simp only [hset, Bool.not_true, Bool.false_eq_true, if_false]
    rw [hbr.1, hbr.2]
    exact ⟨hph.1, ⟨hph.2.1, hph.2.2.1⟩, hph.2.2.2.2⟩
  · rw [Bool.not_eq_true] at hset
    simp only [hset, Bool.not_false, if_true]
    have hmid : InvL (preorderGo shiftNextStep ⟨g, false, false⟩ t).1.gen
        (flatten (preorderGo shiftNextStep ⟨g, false, false⟩ t).2) := by
      rw [hbr.1, hbr.2]
      exact ⟨hph.2.1, hph.2.2.1⟩
    have hsf := shift_first_facts (preorderGo shiftNextStep ⟨g, false, false⟩ t).1.gen
      (preorderGo shiftNextStep ⟨g, false, false⟩ t).2 hmid
    refine ⟨?_, hsf.2.1, ?_⟩
    · have h1 : g ≤ (preorderGo shiftNextStep ⟨g, false, false⟩ t).1.gen := by
        rw [hbr.1]; exact hph.1
      exact le_trans h1 hsf.1
    · intro e he
      rcases hsf.2.2 e he with h2 | h2
      · rw [hbr.2] at h2
        rcases hph.2.2.2.2 e h2 with h3 | h3
        · exact Or.inl h3
        · exact Or.inr h3
      · exact Or.inr h2

theorem shift_prev_facts (g : Nat) (t : NTree) (h : InvL g (flatten t)) :
    g ≤ (shift_prev g t).1 ∧ InvL (shift_prev g t).1 (flatten (shift_prev g t).2) ∧
      (∀ e ∈ flatten (shift_prev g t).2, e ∈ flatten t ∨ e.accept_focus = true) := by
  have hbr := preorderGo_noskip shiftPrevStep shiftPrevStep_noskip t ⟨g, g, false, true⟩
  have hph := mapAccum_stamp shiftPrevStep (fun s => s.gen) (fun d => d.accept_focus)
    (fun d k => rfl) shiftPrevStep_hf (flatten t) ⟨g, g, false, true⟩ h.1 h.2
  simp only [shift_prev]
  rw [hbr.1, hbr.2]
  exact ⟨hph.1, ⟨hph.2.1, hph.2.2.1⟩, hph.2.2.2.2⟩

theorem set_focus_idx_facts (i g : Nat) (t : NTree) (h : InvL g (flatten t)) :
    g ≤ (set_focus_idx i g t).1 ∧
      InvL (set_focus_idx i g t).1 (flatten (set_focus_idx i g t).2) := by
  have hbr := preorderGo_noskip setFocusStep setFocusStep_noskip t ⟨g, 0, i⟩
  have hph := mapAccum_stamp setFocusStep (fun s => s.gen) (fun _ => true)
    (fun d k => rfl) setFocusStep_hf (flatten t) ⟨g, 0, i⟩ h.1 h.2
  simp only [set_focus_idx]
  rw [hbr.1, hbr.2]
  exact ⟨hph.1, hph.2.1, hph.2.2.1⟩

theorem shift_direction_abs_facts (i g : Nat) (t : NTree) (h : InvL g (flatten t)) :
    g ≤ (shift_direction_abs i g t).1 ∧
      InvL (shift_direction_abs i g t).1 (flatten (shift_direction_abs i g t).2) := by
  have hbr := preorderGo_noskip shiftDirStep shiftDirStep_noskip t ⟨g, 0, i, false⟩
  have hph := mapAccum_stamp shiftDirStep (fun s => s.gen) (fun d => d.accept_focus)
    (fun d k => rfl) shiftDirStep_hf (flatten t) ⟨g, 0, i, false⟩ h.1 h.2
  simp only [shift_direction_abs]
  rw [hbr.1, hbr.2]
  exact ⟨hph.1, hph.2.1, hph.2.2.1⟩

/-- Every focus operation preserves the single-focus invariant. -/
theorem applyOp_inv (op : FocusOp) (p : Nat × NTree) (h : InvL p.1 (flatten p.2)) :
    InvL (applyOp op p).1 (flatten (applyOp op p).2) := by
  cases op with
  | setF i => exact (set_focus_idx_facts i p.1 p.2 h).2
  | first => exact (shift_first_facts p.1 p.2 h).2.1
  | next => exact (shift_next_facts p.1 p.2 h).2.1
  | prev => exact (shift_prev_facts p.1 p.2 h).2.1
  | dir i => exact (shift_direction_abs_facts i p.1 p.2 h).2

end Canopy

namespace Canopy

/-- Claim C5: after any sequence of focus operations (`set_focus`,
`shift_first`, `shift_next`, `shift_prev`, `shift_direction`), at most
one node in the whole tree has a `focus_gen` stamp equal to the current
global `focus_gen` counter — at most one node is focused.  The starting
state must itself satisfy the invariant, as the initial state of
`global.rs` does (counter 1, every stamp 0). -/
theorem focus_ops_single_focus (ops : List FocusOp) (g : Nat) (t : NTree)
    (hb : ∀ d ∈ flatten t, d.focusGen ≤ g)
    (hc : (flatten t).countP (fun d => d.focusGen == g) ≤ 1) :
    (flatten (applyOps ops (g, t)).2).countP
      (fun d => d.focusGen == (applyOps ops (g, t)).1) ≤ 1 := by
  have main : ∀ (ops2 : List FocusOp) (p : Nat × NTree), InvL p.1 (flatten p.2) →
      InvL (applyOps ops2 p).1 (flatten (applyOps ops2 p).2) := by
    intro ops2
    induction ops2 with
    | nil => intro p h; exact h
    | cons op rest ih =>
      intro p h
      have hstep : applyOps (op :: rest) p = applyOps rest (applyOp op p) := rfl
      rw [hstep]
      exact ih (applyOp op p) (applyOp_inv op p h)
  exact (main ops (g, t) ⟨hb, hc⟩).2

/-- Witness for `focus_ops_single_focus`: a two-branch tree, fresh
counter 1, and a sequence exercising every operation. -/
theorem focus_ops_single_focus_witness :
    (∀ d ∈ flatten (NTree.node ⟨"r", 0, false, true⟩
        [NTree.node ⟨"a", 0, false, true⟩ [], NTree.node ⟨"b", 0, true, true⟩ []]),
      d.focusGen ≤ 1) ∧
    (flatten (NTree.node ⟨"r", 0, false, true⟩
        [NTree.node ⟨"a", 0, false, true⟩ [], NTree.node ⟨"b", 0, true, true⟩ []])).countP
      (fun d => d.focusGen == 1) ≤ 1 ∧
    (flatten (applyOps [FocusOp.first, FocusOp.next, FocusOp.prev, FocusOp.setF 2, FocusOp.dir 1]
        (1, NTree.node ⟨"r", 0, false, true⟩
          [NTree.node ⟨"a", 0, false, true⟩ [], NTree.node ⟨"b", 0, true, true⟩ []])).2).countP
      (fun d => d.focusGen ==
        (applyOps [FocusOp.first, FocusOp.next, FocusOp.prev, FocusOp.setF 2, FocusOp.dir 1]
          (1, NTree.node ⟨"r", 0, false, true⟩
            [NTree.node ⟨"a", 0, false, true⟩ [], NTree.node ⟨"b", 0, true, true⟩ []])).1) ≤ 1 :=
  ⟨by decide, by decide,
    focus_ops_single_focus [FocusOp.first, FocusOp.next, FocusOp.prev, FocusOp.setF 2, FocusOp.dir 1]
      1 (NTree.node ⟨"r", 0, false, true⟩
        [NTree.node ⟨"a", 0, false, true⟩ [], NTree.node ⟨"b", 0, true, true⟩ []])
      (by decide) (by decide)⟩

/-- Claim C2: a node whose hidden flag is set is never the node focused
by `shift_first` or `shift_next`, even when its widget would accept
focus: when either operation moves focus (the counter changed), the node
carrying the new counter value is not hidden.  Hidden nodes are opaque to
`accept_focus` (spec §4.3), so they are never stamped. -/
theorem hidden_excluded_from_focus_shifts (t : NTree) (g : Nat)
    (hb : ∀ d ∈ flatten t, d.focusGen ≤ g)
    (hc : (flatten t).countP (fun d => d.focusGen == g) ≤ 1) :
    (∀ d ∈ flatten (shift_first g t).2,
        d.focusGen = (shift_first g t).1 → (shift_first g t).1 ≠ g → d.hidden = false) ∧
    (∀ d ∈ flatten (shift_next g t).2,
        d.focusGen = (shift_next g t).1 → (shift_next g t).1 ≠ g → d.hidden = false) := by
  constructor
  · intro d hd hgen hne
    have hf := shift_first_facts g t ⟨hb, hc⟩
    rcases hf.2.2 d hd with hmem | hacc
    · exfalso
      have h1 := hb d hmem
      have h2 := hf.1
      omega
    · exact accept_focus_not_hidden d hacc
  · intro d hd hgen hne
    have hf := shift_next_facts g t ⟨hb, hc⟩
    rcases hf.2.2 d hd with hmem | hacc
    · exfalso
      have h1 := hb d hmem
      have h2 := hf.1
      omega
    · exact accept_focus_not_hidden d hacc

/-- Witness for `hidden_excluded_from_focus_shifts`: a tree whose first
node in preorder after the root is hidden yet accepting; `shift_first`
focuses the visible node after it. -/
theorem hidden_excluded_from_focus_shifts_witness :
    (∀ d ∈ flatten (NTree.node ⟨"r", 0, false, false⟩
        [NTree.node ⟨"h", 0, true, true⟩ [], NTree.node ⟨"v", 0, false, true⟩ []]),
      d.focusGen ≤ 1) ∧
    (flatten (NTree.node ⟨"r", 0, false, false⟩
        [NTree.node ⟨"h", 0, true, true⟩ [], NTree.node ⟨"v", 0, false, true⟩ []])).countP
      (fun d => d.focusGen == 1) ≤ 1 ∧
    (∀ d ∈ flatten (shift_first 1 (NTree.node ⟨"r", 0, false, false⟩
        [NTree.node ⟨"h", 0, true, true⟩ [], NTree.node ⟨"v", 0, false, true⟩ []])).2,
      d.focusGen = (shift_first 1 (NTree.node ⟨"r", 0, false, false⟩
        [NTree.node ⟨"h", 0, true, true⟩ [], NTree.node ⟨"v", 0, false, true⟩ []])).1 →
      (shift_first 1 (NTree.node ⟨"r", 0, false, false⟩
        [NTree.node ⟨"h", 0, true, true⟩ [], NTree.node ⟨"v", 0, false, true⟩ []])).1 ≠ 1 →
      d.hidden = false) :=
  ⟨by decide, by decide,
    (hidden_excluded_from_focus_shifts
      (NTree.node ⟨"r", 0, false, false⟩
        [NTree.node ⟨"h", 0, true, true⟩ [], NTree.node ⟨"v", 0, false, true⟩ []])
      1 (by decide) (by decide)).1⟩

end Canopy

namespace Canopy

/-! ### The focus path (`path` / `walk`) — claim C6 -/

/-- With no focused node anywhere, the focus `walk` visits nothing: the
postorder sweep passes every node (hidden or not) without invoking the
user callback and without skipping. -/
theorem walk_unfocused (g : Nat) (h : α → NodeData → α) :
    ∀ t acc, (∀ d ∈ flatten t, (d.focusGen == g) = false) →
      postorderGo (walkStep g h) (false, acc) t = ((false, acc), .cont) := by
  refine indT
    (fun t => ∀ acc, (∀ d ∈ flatten t, (d.focusGen == g) = false) →
      postorderGo (walkStep g h) (false, acc) t = ((false, acc), .cont))
    (fun ts => ∀ acc, (∀ d ∈ flattenL ts, (d.focusGen == g) = false) →
      postorderGoL (walkStep g h) (false, acc) ts .cont = ((false, acc), .cont))
    ?_ ?_ ?_
  · intro d cs ihL acc hno
    have hd : (d.focusGen == g) = false := hno d (by simp [flatten])
    have hcs : ∀ e ∈ flattenL cs, (e.focusGen == g) = false := by
      intro e he
      exact hno e (by simp [flatten, he])
    have hstep : walkStep g h (false, acc) d = ((false, acc), .cont) := by
      unfold walkStep
      by_cases hh : d.hidden = true <;> simp [hh, hd]
    simp [postorderGo, ihL acc hcs, hstep, Walk.isSkip]
  · intro acc _
    rfl
  · intro t ts ihT ihL acc hno
    have hT : ∀ d ∈ flatten t, (d.focusGen == g) = false := by
      intro e he
      exact hno e (by simp [flattenL, he])
    have hL : ∀ d ∈ flattenL ts, (d.focusGen == g) = false := by
      intro e he
      exact hno e (by simp [flattenL, he])
    simp [postorderGoL, Walk.isSkip, ihT acc hT, ihL acc hL]

/-- Claim C6: `path` returns `"/"` on a tree with no focused node; and on
the three-level tree `rootname / branchname / leafname`, after focusing
the leaf (preorder position 2), `path` returns
`"/rootname/branchname/leafname"`. -/
theorem path_unfocused_and_three_levels :
    (∀ (t : NTree) (g : Nat), (∀ d ∈ flatten t, (d.focusGen == g) = false) →
      path g t = "/") ∧
    (path (set_focus_idx 2 1 (NTree.node ⟨"rootname", 0, false, true⟩
        [NTree.node ⟨"branchname", 0, false, true⟩
          [NTree.node ⟨"leafname", 0, false, true⟩ []]])).1
      (set_focus_idx 2 1 (NTree.node ⟨"rootname", 0, false, true⟩
        [NTree.node ⟨"branchname", 0, false, true⟩
          [NTree.node ⟨"leafname", 0, false, true⟩ []]])).2 =
      "/rootname/branchname/leafname") := by
  constructor
  · intro t g hno
    unfold path focusWalk
    rw [walk_unfocused g (fun acc d => d.name :: acc) t [] hno]
    rfl
  · rfl

/-- Witness for `path_unfocused_and_three_levels`: the unfocused
three-level tree yields `"/"`. -/
theorem path_unfocused_and_three_levels_witness :
    (∀ d ∈ flatten (NTree.node ⟨"rootname", 0, false, true⟩
        [NTree.node ⟨"branchname", 0, false, true⟩
          [NTree.node ⟨"leafname", 0, false, true⟩ []]]), (d.focusGen == 1) = false) ∧
    path 1 (NTree.node ⟨"rootname", 0, false, true⟩
        [NTree.node ⟨"branchname", 0, false, true⟩
          [NTree.node ⟨"leafname", 0, false, true⟩ []]]) = "/" :=
  ⟨by decide,
    path_unfocused_and_three_levels.1
      (NTree.node ⟨"rootname", 0, false, true⟩
        [NTree.node ⟨"branchname", 0, false, true⟩
          [NTree.node ⟨"leafname", 0, false, true⟩ []]]) 1 (by decide)⟩

/-! ### Preorder visit order — claim C7 -/

/-- The names visited by a `preorder` sweep whose visitor signals skip
exactly on the nodes satisfying `skipP`, in visit order. -/
def preorderTrace (skipP : NodeData → Bool) (t : NTree) : List String :=
  (preorderGo (fun (acc : List String) d =>
    (acc ++ [d.name], d, if skipP d then .skip else .cont)) [] t).1

mutual
/-- Specification of the preorder visit order, from the spec's words:
visit the node, then — unless the visitor signals skip on that node — the
child subtrees recursively in declared order. -/
def traceSpec (skipP : NodeData → Bool) : NTree → List String
  | .node d cs => d.name :: (if skipP d then [] else traceSpecL skipP cs)
/-- Specification of the visit order of a forest: subtrees in declared
order. -/
def traceSpecL (skipP : NodeData → Bool) : List NTree → List String
  | [] => []
  | t :: ts => traceSpec skipP t ++ traceSpecL skipP ts
end

theorem preorderTrace_spec (skipP : NodeData → Bool) :
    ∀ t acc, (preorderGo (fun (acc2 : List String) d =>
      (acc2 ++ [d.name], d, if skipP d then .skip else .cont)) acc t).1 =
        acc ++ traceSpec skipP t := by
  refine indT
    (fun t => ∀ acc, (preorderGo (fun (acc2 : List String) d =>
      (acc2 ++ [d.name], d, if skipP d then .skip else .cont)) acc t).1 =
        acc ++ traceSpec skipP t)
    (fun ts => ∀ acc, (preorderGoL (fun (acc2 : List String) d =>
      (acc2 ++ [d.name], d, if skipP d then .skip else .cont)) acc ts).1 =
        acc ++ traceSpecL skipP ts)
    ?_ ?_ ?_
  · intro d cs ihL acc
    by_cases hd : skipP d = true
    · simp [preorderGo, hd, Walk.isSkip, traceSpec]
    · rw [Bool.not_eq_true] at hd
      simp [preorderGo, hd, Walk.isSkip, traceSpec, ihL (acc ++ [d.name])]
  · intro acc
    simp [preorderGoL, traceSpecL]
  · intro t ts ihT ihL acc
    simp [preorderGoL, traceSpecL, ihT acc, ihL]

/-- Claim C7: `preorder` visits the root first and then — unless the
visitor signals skip on that node — each child subtree recursively in
declared order; a skip on a node prunes exactly that node's children; a
single node with no children is visited exactly once. -/
theorem preorder_visit_order (skipP : NodeData → Bool) :
    (∀ d cs, preorderTrace skipP (NTree.node d cs) =
      d.name :: (if skipP d then [] else traceSpecL skipP cs)) ∧
    (∀ d, preorderTrace skipP (NTree.node d []) = [d.name]) := by
  constructor
  · intro d cs
    have h := preorderTrace_spec skipP (NTree.node d cs) []
    unfold preorderTrace
    rw [h]
    simp [traceSpec]
  · intro d
    have h := preorderTrace_spec skipP (NTree.node d []) []
    unfold preorderTrace
    rw [h]
    by_cases hd : skipP d = true <;> simp [traceSpec, traceSpecL, hd]

end Canopy

namespace Canopy

/-! ### Claim C3: `shift_next` cycle — helper lemmas -/

theorem firstAcc_strip : ∀ l : List NodeData,
    firstAcc (l.map NodeData.stripGen) = firstAcc l := by
  intro l
  induction l with
  | nil => rfl
  | cons d ds ih =>
    simp only [List.map_cons, firstAcc]
    have hsd : (NodeData.stripGen d).accept_focus = d.accept_focus := rfl
    rw [hsd, ih]

theorem firstAcc_congr (l1 l2 : List NodeData)
    (h : l1.map NodeData.stripGen = l2.map NodeData.stripGen) :
    firstAcc l1 = firstAcc l2 := by
  rw [← firstAcc_strip l1, h, firstAcc_strip]

theorem countAcc_strip : ∀ l : List NodeData,
    (l.map NodeData.stripGen).countP (fun d => d.accept_focus) =
      l.countP (fun d => d.accept_focus) := by
  intro l
  induction l with
  | nil => rfl
  | cons d ds ih =>
    simp only [List.map_cons, List.countP_cons, ih]
    rfl

theorem countAcc_congr (l1 l2 : List NodeData)
    (h : l1.map NodeData.stripGen = l2.map NodeData.stripGen) :
    l1.countP (fun d => d.accept_focus) = l2.countP (fun d => d.accept_focus) := by
  rw [← countAcc_strip l1, h, countAcc_strip]

theorem exists_firstAcc_decomp : ∀ l : List NodeData,
    l.any (fun d => d.accept_focus) = true →
    ∃ u c v, l = u ++ c :: v ∧ (∀ d ∈ u, d.accept_focus = false) ∧ c.accept_focus = true := by
  intro l
  induction l with
  | nil => intro h; simp at h
  | cons d ds ih =>
    intro h
    by_cases hd : d.accept_focus = true
    · exact ⟨[], d, ds, rfl, by simp, hd⟩
    · rw [Bool.not_eq_true] at hd
      rw [List.any_cons, hd, Bool.false_or] at h
      obtain ⟨u, c, v, heq, hu, hc⟩ := ih h
      refine ⟨d :: u, c, v, by rw [heq]; rfl, ?_, hc⟩
      intro e he
      rcases List.mem_cons.1 he with he | he
      · rw [he]; exact hd
      · exact hu e he

theorem stampFirstAcc_decomp (k : Nat) :
    ∀ u (c : NodeData) v, (∀ d ∈ u, d.accept_focus = false) → c.accept_focus = true →
    stampFirstAcc k (u ++ c :: v) = u ++ { c with focusGen := k } :: v := by
  intro u
  induction u with
  | nil =>
    intro c v _ hc
    simp [stampFirstAcc, hc]
  | cons d ds ih =>
    intro c v hu hc
    have hd : d.accept_focus = false := hu d (List.mem_cons_self d ds)
    have hds : ∀ e ∈ ds, e.accept_focus = false := fun e he => hu e (List.mem_cons_of_mem d he)
    simp only [List.cons_append, stampFirstAcc, hd, Bool.false_eq_true, if_false]
    have happ : ds.append (c :: v) = ds ++ c :: v := rfl
    rw [happ, ih c v hds hc]

/-- The `shift_next` step on the flattened sequence, as one function. -/
def stepL (p : Nat × List NodeData) : Nat × List NodeData :=
  shiftNextL p.1 p.2

/-- One `shift_next` step from an unfocused sequence is the `shift_first`
fallback. -/
theorem stepL_unfocused (g : Nat) (l : List NodeData)
    (hno : ∀ d ∈ l, (d.focusGen == g) = false) :
    stepL (g, l) = shiftFirstL g l := by
  unfold stepL shiftNextL
  rw [snSweep_nopivot l g hno]
  rfl

/-- One `shift_next` step from a sequence focused at the pivot `c` (the
first node stamped with the current counter): when a node after `c`
accepts focus the first such node is stamped, and otherwise the step
falls back to `shift_first` on the unchanged sequence. -/
theorem stepL_focused (g : Nat) (u : List NodeData) (c : NodeData) (v : List NodeData)
    (hu : ∀ d ∈ u, (d.focusGen == g) = false) (hc : (c.focusGen == g) = true) :
    (v.any (fun d => d.accept_focus) = true →
      stepL (g, u ++ c :: v) = (g + 1, u ++ c :: stampFirstAcc (g + 1) v)) ∧
    (v.any (fun d => d.accept_focus) = false →
      stepL (g, u ++ c :: v) = shiftFirstL g (u ++ c :: v)) := by
  constructor
  · intro hany
    unfold stepL shiftNextL
    rw [snSweep_pivot u c v g hu hc, hany]
    rfl
  · intro hany
    unfold stepL shiftNextL
    rw [snSweep_pivot u c v g hu hc, hany]
    simp only [Bool.false_eq_true, if_false, Bool.not_false, if_true]
    rw [stampFirstAcc_no_acc _ _ hany]

end Canopy

namespace Canopy

/-- The `shift_next` cycle on the flattened sequence: from a sequence
whose (first) focused node `c` accepts focus and has `k` focus-accepting
nodes after it, `k + 1` further `shift_next` steps land on the first
focus-accepting node of the sequence, with all non-stamp data unchanged. -/
theorem snL_cycle : ∀ (k g : Nat) (u : List NodeData) (c : NodeData) (v : List NodeData),
    c.accept_focus = true → c.focusGen = g →
    (∀ d ∈ u, (d.focusGen == g) = false) →
    (∀ d ∈ u ++ c :: v, d.focusGen ≤ g) →
    v.countP (fun d => d.accept_focus) = k →
    firstFocused (stepL^[k + 1] (g, u ++ c :: v)).1 (stepL^[k + 1] (g, u ++ c :: v)).2 =
      firstAcc (u ++ c :: v) ∧
    (stepL^[k + 1] (g, u ++ c :: v)).2.map NodeData.stripGen =
      (u ++ c :: v).map NodeData.stripGen := by
  intro k
  induction k with
  | zero =>
    intro g u c v hca hcg hu hb hcnt
    have hvfalse : v.any (fun d => d.accept_focus) = false := by
      rw [List.any_eq_false]
      intro d hd
      have := List.countP_eq_zero.1 hcnt d hd
      simpa using this
    have hcb : (c.focusGen == g) = true := by simp [hcg]
    have hone : stepL^[0 + 1] (g, u ++ c :: v) = stepL (g, u ++ c :: v) := by
      rw [Function.iterate_one]
    rw [hone, (stepL_focused g u c v hu hcb).2 hvfalse]
    have hanyl : (u ++ c :: v).any (fun d => d.accept_focus) = true := by
      rw [List.any_eq_true]
      exact ⟨c, List.mem_append.2 (Or.inr (List.mem_cons_self c v)), hca⟩
    have hfacts := stampFirstAcc_facts (g + 1) g (Nat.lt_succ_self g) (u ++ c :: v) hb
    have hsf : shiftFirstL g (u ++ c :: v) = (g + 1, stampFirstAcc (g + 1) (u ++ c :: v)) := by
      simp [shiftFirstL, hanyl]
    rw [hsf]
    exact ⟨hfacts.2.2.2.2 hanyl, hfacts.2.2.2.1⟩
  | succ k ih =>
    intro g u c v hca hcg hu hb hcnt
    have hvany : v.any (fun d => d.accept_focus) = true := by
      rw [List.any_eq_true]
      have hpos : 0 < v.countP (fun d => d.accept_focus) := by omega
      obtain ⟨d, hd, hpd⟩ := List.countP_pos_iff.1 hpos
      exact ⟨d, hd, hpd⟩
    have hcb : (c.focusGen == g) = true := by simp [hcg]
    obtain ⟨v1, c2, v2, hveq, hv1, hc2⟩ := exists_firstAcc_decomp v hvany
    have hstamp : stampFirstAcc (g + 1) v = v1 ++ { c2 with focusGen := g + 1 } :: v2 := by
      rw [hveq]
      exact stampFirstAcc_decomp (g + 1) v1 c2 v2 hv1 hc2
    have hstep : stepL (g, u ++ c :: v) = (g + 1, u ++ c :: stampFirstAcc (g + 1) v) :=
      (stepL_focused g u c v hu hcb).1 hvany
    have hit : stepL^[k + 1 + 1] (g, u ++ c :: v) =
        stepL^[k + 1] (stepL (g, u ++ c :: v)) := by
      rw [Function.iterate_succ_apply]
    rw [hit, hstep, hstamp]
    have hassoc : u ++ c :: (v1 ++ { c2 with focusGen := g + 1 } :: v2) =
        (u ++ c :: v1) ++ { c2 with focusGen := g + 1 } :: v2 := by
      simp [List.append_assoc]
    rw [hassoc]
    have hbv : ∀ d ∈ v, d.focusGen ≤ g := by
      intro d hd
      exact hb d (List.mem_append.2 (Or.inr (List.mem_cons_of_mem c hd)))
    have hbu : ∀ d ∈ u, d.focusGen ≤ g := by
      intro d hd
      exact hb d (List.mem_append.2 (Or.inl hd))
    have hu2 : ∀ d ∈ (u ++ c :: v1), (d.focusGen == g + 1) = false := by
      intro d hd
      have hle : d.focusGen ≤ g := by
        rcases List.mem_append.1 hd with hd | hd
        · exact hbu d hd
        · rcases List.mem_cons.1 hd with hd | hd
          · rw [hd, hcg]
          · refine hbv d ?_
            rw [hveq]
            exact List.mem_append.2 (Or.inl hd)
      simp only [beq_eq_false_iff_ne]
      omega
    have hb2 : ∀ d ∈ (u ++ c :: v1) ++ { c2 with focusGen := g + 1 } :: v2,
        d.focusGen ≤ g + 1 := by
      intro d hd
      rcases List.mem_append.1 hd with hd | hd
      · rcases List.mem_append.1 hd with hd | hd
        · exact Nat.le_succ_of_le (hbu d hd)
        · rcases List.mem_cons.1 hd with hd | hd
          · rw [hd, hcg]; exact Nat.le_succ g
          · refine Nat.le_succ_of_le (hbv d ?_)
            rw [hveq]
            exact List.mem_append.2 (Or.inl hd)
      · rcases List.mem_cons.1 hd with hd | hd
        · rw [hd]
        · refine Nat.le_succ_of_le (hbv d ?_)
          rw [hveq]
          exact List.mem_append.2 (Or.inr (List.mem_cons_of_mem c2 hd))
    have hcnt2 : v2.countP (fun d => d.accept_focus) = k := by
      have hv1z : v1.countP (fun d => d.accept_focus) = 0 := by
        rw [List.countP_eq_zero]
        intro d hd
        simp [hv1 d hd]
      rw [hveq, List.countP_append, List.countP_cons, hv1z, hc2] at hcnt
      simp at hcnt
      omega
    have hca2 : ({ c2 with focusGen := g + 1 } : NodeData).accept_focus = true := hc2
    have ihres := ih (g + 1) (u ++ c :: v1) { c2 with focusGen := g + 1 } v2
      hca2 rfl hu2 hb2 hcnt2
    have hstrip12 : ((u ++ c :: v1) ++ { c2 with focusGen := g + 1 } :: v2).map NodeData.stripGen =
        (u ++ c :: v).map NodeData.stripGen := by
      rw [hveq]
      simp only [List.map_append, List.map_cons, List.append_assoc, List.cons_append]
      rfl
    refine ⟨?_, ?_⟩
    · rw [ihres.1]
      exact firstAcc_congr _ _ hstrip12
    · rw [ihres.2, hstrip12]

end Canopy

namespace Canopy

/-- Iterating the tree-level `shift_next` matches iterating the
list-level step on the flattened sequence. -/
theorem applyOps_next_bridge : ∀ (n : Nat) (p : Nat × NTree),
    (applyOps (List.replicate n FocusOp.next) p).1 = (stepL^[n] (p.1, flatten p.2)).1 ∧
    flatten (applyOps (List.replicate n FocusOp.next) p).2 = (stepL^[n] (p.1, flatten p.2)).2 := by
  intro n
  induction n with
  | zero => intro p; exact ⟨rfl, rfl⟩
  | succ n ih =>
    intro p
    have hb := shift_next_bridge p.1 p.2
    have hpair : stepL (p.1, flatten p.2) =
        ((shift_next p.1 p.2).1, flatten (shift_next p.1 p.2).2) := by
      unfold stepL
      exact Prod.ext_iff.2 ⟨hb.1.symm, hb.2.symm⟩
    have hrep : List.replicate (n + 1) FocusOp.next =
        FocusOp.next :: List.replicate n FocusOp.next := List.replicate_succ FocusOp.next n
    have hfold : applyOps (List.replicate (n + 1) FocusOp.next) p =
        applyOps (List.replicate n FocusOp.next) (shift_next p.1 p.2) := by
      rw [hrep]; rfl
    have hiter : stepL^[n + 1] (p.1, flatten p.2) = stepL^[n] (stepL (p.1, flatten p.2)) :=
      Function.iterate_succ_apply stepL n (p.1, flatten p.2)
    rw [hfold, hiter, hpair]
    exact ih (shift_next p.1 p.2)

/-- Claim C3, counterexample to the claim as stated: with N the number of
focusable nodes (here 2: the root and its child), N calls of
`shift_next` from the unfocused state land on the LAST focusable node,
not back on the first.  From counter 1 and all stamps 0, two calls focus
the node at preorder position 1, not position 0 where the first
focusable node sits. -/
theorem shift_next_wrap_counterexample :
    firstFocused
        (applyOps [FocusOp.next, FocusOp.next] (1, NTree.node ⟨"r", 0, false, true⟩
          [NTree.node ⟨"a", 0, false, true⟩ []])).1
        (flatten (applyOps [FocusOp.next, FocusOp.next] (1, NTree.node ⟨"r", 0, false, true⟩
          [NTree.node ⟨"a", 0, false, true⟩ []])).2) = some 1 ∧
      (flatten (NTree.node ⟨"r", 0, false, true⟩
        [NTree.node ⟨"a", 0, false, true⟩ []])).countP (fun d => d.accept_focus) = 2 ∧
      firstAcc (flatten (NTree.node ⟨"r", 0, false, true⟩
        [NTree.node ⟨"a", 0, false, true⟩ []])) = some 0 ∧
      (some 1 : Option Nat) ≠ some 0 := by
  decide

/-- Claim C3 as amended: for every tree with at least one focusable node
and no focused node, `shift_next` focuses the first focusable node in
preorder, and `N + 1` calls (not `N`) return focus to that first
focusable node, where `N` is the number of focusable nodes; the
non-stamp data of every node is preserved. -/
theorem shift_next_first_and_wrap (t : NTree) (g : Nat)
    (hb : ∀ d ∈ flatten t, d.focusGen < g)
    (hany : (flatten t).any (fun d => d.accept_focus) = true) :
    (firstFocused (shift_next g t).1 (flatten (shift_next g t).2) = firstAcc (flatten t) ∧
      (shift_next g t).1 = g + 1) ∧
    (firstFocused
        (applyOps (List.replicate ((flatten t).countP (fun d => d.accept_focus) + 1)
          FocusOp.next) (g, t)).1
        (flatten (applyOps (List.replicate ((flatten t).countP (fun d => d.accept_focus) + 1)
          FocusOp.next) (g, t)).2) = firstAcc (flatten t) ∧
      (flatten (applyOps (List.replicate ((flatten t).countP (fun d => d.accept_focus) + 1)
          FocusOp.next) (g, t)).2).map NodeData.stripGen =
        (flatten t).map NodeData.stripGen) := by
  have hble : ∀ d ∈ flatten t, d.focusGen ≤ g := fun d hd => le_of_lt (hb d hd)
  have hno : ∀ d ∈ flatten t, (d.focusGen == g) = false := by
    intro d hd
    have := hb d hd
    simp only [beq_eq_false_iff_ne]
    omega
  have hfacts := stampFirstAcc_facts (g + 1) g (Nat.lt_succ_self g) (flatten t) hble
  have hsfL : shiftFirstL g (flatten t) = (g + 1, stampFirstAcc (g + 1) (flatten t)) := by
    simp [shiftFirstL, hany]
  have hstep0 : stepL (g, flatten t) = (g + 1, stampFirstAcc (g + 1) (flatten t)) := by
    rw [stepL_unfocused g (flatten t) hno, hsfL]
  constructor
  · -- first call: shift_first semantics
    have hbr := shift_next_bridge g t
    have h1 : shiftNextL g (flatten t) = stepL (g, flatten t) := rfl
    rw [hbr.1, hbr.2, h1, hstep0]
    exact ⟨hfacts.2.2.2.2 hany, rfl⟩
  · -- N + 1 calls: one shift_first step, then the cycle
    obtain ⟨u, c0, v, hleq, hu, hc0⟩ := exists_firstAcc_decomp (flatten t) hany
    have hstamp : stampFirstAcc (g + 1) (flatten t) =
        u ++ { c0 with focusGen := g + 1 } :: v := by
      rw [hleq]
      exact stampFirstAcc_decomp (g + 1) u c0 v hu hc0
    have hN : (flatten t).countP (fun d => d.accept_focus) =
        v.countP (fun d => d.accept_focus) + 1 := by
      have huz : u.countP (fun d => d.accept_focus) = 0 := by
        rw [List.countP_eq_zero]
        intro d hd
        simp [hu d hd]
      rw [hleq, List.countP_append, List.countP_cons, huz, hc0]
      simp
    have hbr := applyOps_next_bridge
      ((flatten t).countP (fun d => d.accept_focus) + 1) (g, t)
    have hiter : stepL^[(flatten t).countP (fun d => d.accept_focus) + 1] (g, flatten t) =
        stepL^[v.countP (fun d => d.accept_focus) + 1] (stepL (g, flatten t)) := by
      rw [hN]
      exact Function.iterate_succ_apply stepL (v.countP (fun d => d.accept_focus) + 1)
        (g, flatten t)
    have hu2 : ∀ d ∈ u, (d.focusGen == g + 1) = false := by
      intro d hd
      have : d ∈ flatten t := by
        rw [hleq]; exact List.mem_append.2 (Or.inl hd)
      have := hb d this
      simp only [beq_eq_false_iff_ne]
      omega
    have hb2 : ∀ d ∈ u ++ { c0 with focusGen := g + 1 } :: v, d.focusGen ≤ g + 1 := by
      intro d hd
      rcases List.mem_append.1 hd with hd | hd
      · have : d ∈ flatten t := by
          rw [hleq]; exact List.mem_append.2 (Or.inl hd)
        exact Nat.le_succ_of_le (hble d this)
      · rcases List.mem_cons.1 hd with hd | hd
        · rw [hd]
        · have : d ∈ flatten t := by
            rw [hleq]; exact List.mem_append.2 (Or.inr (List.mem_cons_of_mem c0 hd))
          exact Nat.le_succ_of_le (hble d this)
    have hcyc := snL_cycle (v.countP (fun d => d.accept_focus)) (g + 1) u
      { c0 with focusGen := g + 1 } v hc0 rfl hu2 hb2 rfl
    have hstrip1 : (u ++ ({ c0 with focusGen := g + 1 } : NodeData) :: v).map NodeData.stripGen =
        (flatten t).map NodeData.stripGen := by
      rw [hleq]
      simp only [List.map_append, List.map_cons]
      rfl
    rw [hbr.1, hbr.2, hiter, hstep0, hstamp]
    constructor
    · rw [hcyc.1]
      exact firstAcc_congr _ _ hstrip1
    · rw [hcyc.2, hstrip1]

/-- Witness for `shift_next_first_and_wrap`: the two-node tree with both
nodes focusable, fresh counter 1. -/
theorem shift_next_first_and_wrap_witness :
    (∀ d ∈ flatten (NTree.node ⟨"r", 0, false, true⟩
        [NTree.node ⟨"a", 0, false, true⟩ []]), d.focusGen < 1) ∧
    ((flatten (NTree.node ⟨"r", 0, false, true⟩
        [NTree.node ⟨"a", 0, false, true⟩ []])).any (fun d => d.accept_focus) = true) ∧
    firstFocused
        (shift_next 1 (NTree.node ⟨"r", 0, false, true⟩
          [NTree.node ⟨"a", 0, false, true⟩ []])).1
        (flatten (shift_next 1 (NTree.node ⟨"r", 0, false, true⟩
          [NTree.node ⟨"a", 0, false, true⟩ []])).2) =
      firstAcc (flatten (NTree.node ⟨"r", 0, false, true⟩
        [NTree.node ⟨"a", 0, false, true⟩ []])) :=
  ⟨by decide, by decide,
    ((shift_next_first_and_wrap (NTree.node ⟨"r", 0, false, true⟩
      [NTree.node ⟨"a", 0, false, true⟩ []]) 1 (by decide) (by decide)).1).1⟩

end Canopy

namespace Canopy

/-! ### Claim C4: `shift_prev` characterization -/

/-- The `shift_prev` sweep after the skipped first node, as a list
function: walk until the node stamped with the captured counter value,
stamping every focus-accepting node passed on the way (each stamp bumps
the counter). -/
def spGo (g k : Nat) : List NodeData → Nat × List NodeData
  | [] => (k, [])
  | d :: ds =>
    if d.focusGen == g then (k, d :: ds)
    else if d.accept_focus then
      ((spGo g (k + 1) ds).1, { d with focusGen := k + 1 } :: (spGo g (k + 1) ds).2)
    else
      ((spGo g k ds).1, d :: (spGo g k ds).2)

/-- `shift_prev` on the flattened sequence: skip the first node (the
root), then run the stamping walk. -/
def shiftPrevL (g : Nat) : List NodeData → Nat × List NodeData
  | [] => (g, [])
  | d0 :: rest => ((spGo g g rest).1, d0 :: (spGo g g rest).2)

/-- The `shift_prev` sweep from a state with the focused node already
seen changes nothing. -/
theorem spSweep_seen : ∀ (l : List NodeData) (k cur : Nat),
    mapAccumGo shiftPrevStep ⟨k, cur, true, false⟩ l = (⟨k, cur, true, false⟩, l) := by
  intro l
  induction l with
  | nil => intro k cur; rfl
  | cons d ds ih =>
    intro k cur
    have hstep : shiftPrevStep ⟨k, cur, true, false⟩ d = (⟨k, cur, true, false⟩, d, .cont) := by
      simp [shiftPrevStep]
    simp [mapAccumGo, hstep, ih]

/-- The `shift_prev` sweep from the post-root state computes `spGo`. -/
theorem spSweep_go (g : Nat) : ∀ (l : List NodeData) (k : Nat),
    (mapAccumGo shiftPrevStep ⟨k, g, false, false⟩ l).1.gen = (spGo g k l).1 ∧
    (mapAccumGo shiftPrevStep ⟨k, g, false, false⟩ l).2 = (spGo g k l).2 := by
  intro l
  induction l with
  | nil => intro k; exact ⟨rfl, rfl⟩
  | cons d ds ih =>
    intro k
    by_cases hp : (d.focusGen == g) = true
    · have hstep : shiftPrevStep ⟨k, g, false, false⟩ d = (⟨k, g, true, false⟩, d, .cont) := by
        simp only [shiftPrevStep]
        simp [hp]
      simp [mapAccumGo, hstep, spSweep_seen, spGo, hp]
    · rw [Bool.not_eq_true] at hp
      by_cases ha : d.accept_focus = true
      · have hstep : shiftPrevStep ⟨k, g, false, false⟩ d =
            (⟨k + 1, g, false, false⟩, { d with focusGen := k + 1 }, .cont) := by
          simp only [shiftPrevStep]
          simp [hp, ha]
        simp [mapAccumGo, hstep, spGo, hp, ha, ih (k + 1)]
      · rw [Bool.not_eq_true] at ha
        have hstep : shiftPrevStep ⟨k, g, false, false⟩ d =
            (⟨k, g, false, false⟩, d, .cont) := by
          simp only [shiftPrevStep]
          simp [hp, ha]
        simp [mapAccumGo, hstep, spGo, hp, ha, ih k]

/-- `shift_prev` acts on the flattened node sequence as `shiftPrevL`. -/
theorem shift_prev_bridge (g : Nat) (t : NTree) :
    (shift_prev g t).1 = (shiftPrevL g (flatten t)).1 ∧
      flatten (shift_prev g t).2 = (shiftPrevL g (flatten t)).2 := by
  have hbr := preorderGo_noskip shiftPrevStep shiftPrevStep_noskip t ⟨g, g, false, true⟩
  simp only [shift_prev]
  rw [hbr.1, hbr.2]
  cases t with
  | node d cs =>
    have hflat : flatten (NTree.node d cs) = d :: flattenL cs := rfl
    rw [hflat]
    have hstep : shiftPrevStep ⟨g, g, false, true⟩ d = (⟨g, g, false, false⟩, d, .cont) := by
      simp [shiftPrevStep]
    have hgo := spSweep_go g (flattenL cs) g
    simp [mapAccumGo, hstep, shiftPrevL, hgo.1, hgo.2]

theorem lastAcc_none_iff : ∀ l : List NodeData,
    lastAcc l = none ↔ l.countP (fun d => d.accept_focus) = 0 := by
  intro l
  induction l with
  | nil => simp [lastAcc]
  | cons d ds ih =>
    rw [List.countP_cons]
    constructor
    · intro h
      unfold lastAcc at h
      cases hds : lastAcc ds with
      | some i => rw [hds] at h; simp at h
      | none =>
        rw [hds] at h
        have hz := ih.1 hds
        by_cases ha : d.accept_focus = true
        · rw [ha] at h; simp at h
        · rw [Bool.not_eq_true] at ha
          simp [hz, ha]
    · intro h
      have ha : d.accept_focus = false := by
        cases hacc : d.accept_focus with
        | false => rfl
        | true => rw [hacc] at h; simp at h
      have hz : ds.countP (fun d => d.accept_focus) = 0 := by
        rw [ha] at h
        simpa using h
      unfold lastAcc
      rw [ih.2 hz, ha]
      simp

theorem lastAcc_some_of_pos (l : List NodeData)
    (h : 0 < l.countP (fun d => d.accept_focus)) : ∃ i, lastAcc l = some i := by
  cases hl : lastAcc l with
  | some i => exact ⟨i, rfl⟩
  | none =>
    have := (lastAcc_none_iff l).1 hl
    omega

end Canopy

namespace Canopy

theorem firstFocused_cons (gv : Nat) (d : NodeData) (ds : List NodeData) :
    firstFocused gv (d :: ds) =
      if d.focusGen == gv then some 0 else (firstFocused gv ds).map (· + 1) := rfl

theorem lastAcc_cons (d : NodeData) (ds : List NodeData) :
    lastAcc (d :: ds) =
      match lastAcc ds with
      | some i => some (i + 1)
      | none => if d.accept_focus then some 0 else none := rfl

/-- Characterization of the `shift_prev` stamping walk: starting from
counter `k ≥ g` on a sequence whose stamps are bounded by `g`, the walk
ends with the counter advanced by the number of focus-accepting nodes
strictly before the focused node (the prefix cut at the first node
stamped `g`), leaves all non-stamp data unchanged, changes nothing when
that prefix holds no focus-accepting node, and otherwise leaves the LAST
focus-accepting node of that prefix as the node carrying the final
counter value. -/
theorem spGo_char (g : Nat) : ∀ (l : List NodeData) (k : Nat), g ≤ k →
    (∀ d ∈ l, d.focusGen ≤ g) →
    ((spGo g k l).1 =
      k + (l.takeWhile (fun d => !(d.focusGen == g))).countP (fun d => d.accept_focus)) ∧
    ((spGo g k l).2.map NodeData.stripGen = l.map NodeData.stripGen) ∧
    ((l.takeWhile (fun d => !(d.focusGen == g))).countP (fun d => d.accept_focus) = 0 →
      (spGo g k l).2 = l) ∧
    (0 < (l.takeWhile (fun d => !(d.focusGen == g))).countP (fun d => d.accept_focus) →
      firstFocused (spGo g k l).1 (spGo g k l).2 =
        lastAcc (l.takeWhile (fun d => !(d.focusGen == g)))) := by
  intro l
  induction l with
  | nil =>
    intro k _ _
    refine ⟨by simp [spGo], rfl, fun _ => rfl, ?_⟩
    intro h
    simp at h
  | cons d ds ih =>
    intro k hk hb
    have hdb : d.focusGen ≤ g := hb d (List.mem_cons_self d ds)
    have hdsb : ∀ e ∈ ds, e.focusGen ≤ g := fun e he => hb e (List.mem_cons_of_mem d he)
    by_cases hp : (d.focusGen == g) = true
    · -- the pivot: the walk stops here
      have htw : (d :: ds).takeWhile (fun d => !(d.focusGen == g)) = [] := by
        rw [List.takeWhile_cons, hp]
        simp
      have hgo : spGo g k (d :: ds) = (k, d :: ds) := by
        simp [spGo, hp]
      rw [htw, hgo]
      refine ⟨by simp, rfl, fun _ => rfl, ?_⟩
      intro h
      simp at h
    · rw [Bool.not_eq_true] at hp
      have htw : (d :: ds).takeWhile (fun d => !(d.focusGen == g)) =
          d :: ds.takeWhile (fun d => !(d.focusGen == g)) := by
        rw [List.takeWhile_cons, hp]
        simp
      by_cases ha : d.accept_focus = true
      · -- a stamped node
        have ihds := ih (k + 1) (Nat.le_succ_of_le hk) hdsb
        have hgo : spGo g k (d :: ds) =
            ((spGo g (k + 1) ds).1, { d with focusGen := k + 1 } :: (spGo g (k + 1) ds).2) := by
          simp [spGo, hp, ha]
        rw [htw, hgo]
        rw [List.countP_cons, ha]
        simp only [if_true]
        set cntDs := (ds.takeWhile (fun d => !(d.focusGen == g))).countP
          (fun d => d.accept_focus) with hcntDs
        refine ⟨by rw [ihds.1]; omega, ?_, ?_, ?_⟩
        · simp only [List.map_cons, ihds.2.1]
          rfl
        · intro h
          omega
        · intro _
          rw [ihds.1]
          rcases Nat.eq_zero_or_pos cntDs with hz | hpos
          · -- the stamped node is the last one: it carries the final counter
            have hsame := ihds.2.2.1 hz
            rw [hz, hsame]
            have hdk : (({ d with focusGen := k + 1 } : NodeData).focusGen == k + 1 + 0) = true := by
              simp
            have hnone := (lastAcc_none_iff (ds.takeWhile (fun d => !(d.focusGen == g)))).2 hz
            rw [firstFocused_cons, hdk, lastAcc_cons, hnone, ha]
            simp
          · -- later stamps exist: recurse
            have hne : (({ d with focusGen := k + 1 } : NodeData).focusGen == k + 1 + cntDs) = false := by
              simp only [beq_eq_false_iff_ne]
              omega
            have hrec := ihds.2.2.2 hpos
            rw [ihds.1] at hrec
            obtain ⟨i, hi⟩ := lastAcc_some_of_pos _ hpos
            rw [firstFocused_cons, hne, hrec, lastAcc_cons, hi]
            simp
      · -- a passed-over node
        rw [Bool.not_eq_true] at ha
        have ihds := ih k hk hdsb
        have hgo : spGo g k (d :: ds) = ((spGo g k ds).1, d :: (spGo g k ds).2) := by
          simp [spGo, hp, ha]
        rw [htw, hgo]
        rw [List.countP_cons, ha]
        simp only [Bool.false_eq_true, if_false]
        set cntDs := (ds.takeWhile (fun d => !(d.focusGen == g))).countP
          (fun d => d.accept_focus) with hcntDs
        refine ⟨by rw [ihds.1]; omega, ?_, ?_, ?_⟩
        · simp only [List.map_cons, ihds.2.1]
        · intro h
          rw [ihds.2.2.1 (by omega)]
        · intro hpos
          rw [ihds.1]
          have hpos2 : 0 < cntDs := by omega
          have hne : (d.focusGen == k + cntDs) = false := by
            simp only [beq_eq_false_iff_ne]
            omega
          have hrec := ihds.2.2.2 hpos2
          rw [ihds.1] at hrec
          obtain ⟨i, hi⟩ := lastAcc_some_of_pos _ hpos2
          rw [firstFocused_cons, hne, hrec, lastAcc_cons, hi]
          simp

end Canopy

namespace Canopy

/-- Claim C4, counterexample: `shift_prev` is neither the exact reverse
of `shift_next` nor does it wrap via `shift_first`.  On the two-node tree
(root and child, both focusable) with no focus, `shift_prev` focuses the
LAST focusable node (position 1), while `shift_first` — through which the
claim says it wraps — focuses position 0; and from that state a further
`shift_prev` leaves focus at position 1 instead of moving to the root as
the reverse of `shift_next` (which steps root → child) would. -/
theorem shift_prev_counterexample :
    firstFocused
        (shift_prev 1 (NTree.node ⟨"r", 0, false, true⟩
          [NTree.node ⟨"a", 0, false, true⟩ []])).1
        (flatten (shift_prev 1 (NTree.node ⟨"r", 0, false, true⟩
          [NTree.node ⟨"a", 0, false, true⟩ []])).2) = some 1 ∧
      firstFocused
        (shift_first 1 (NTree.node ⟨"r", 0, false, true⟩
          [NTree.node ⟨"a", 0, false, true⟩ []])).1
        (flatten (shift_first 1 (NTree.node ⟨"r", 0, false, true⟩
          [NTree.node ⟨"a", 0, false, true⟩ []])).2) = some 0 ∧
      firstFocused
        (applyOps [FocusOp.prev, FocusOp.prev] (1, NTree.node ⟨"r", 0, false, true⟩
          [NTree.node ⟨"a", 0, false, true⟩ []])).1
        (flatten (applyOps [FocusOp.prev, FocusOp.prev] (1, NTree.node ⟨"r", 0, false, true⟩
          [NTree.node ⟨"a", 0, false, true⟩ []])).2) = some 1 ∧
      (some 1 : Option Nat) ≠ some 0 := by
  decide

/-- Claim C4 as amended: `shift_prev` walks the preorder sequence with
the root (the first node) skipped, stamping every focusable node strictly
before the currently focused one; it therefore focuses the LAST focusable
non-root node preceding the current focus in preorder — wrapping to the
last focusable non-root node of the whole tree when no node is focused or
the root holds focus — and leaves focus unchanged (no `shift_first`
fallback) when no focusable non-root node precedes the focus.  It thus
reverses `shift_next` only in the interior of the cycle: the root is
never reached and the wrap goes to the end of the order, not through
`shift_first`. -/
theorem shift_prev_behavior (t : NTree) (g : Nat)
    (hb : ∀ d ∈ flatten t, d.focusGen ≤ g) :
    ∀ d0 rest, flatten t = d0 :: rest →
    ((rest.takeWhile (fun d => !(d.focusGen == g))).countP (fun d => d.accept_focus) = 0 →
      (shift_prev g t).1 = g ∧ flatten (shift_prev g t).2 = flatten t) ∧
    (0 < (rest.takeWhile (fun d => !(d.focusGen == g))).countP (fun d => d.accept_focus) →
      (shift_prev g t).1 =
        g + (rest.takeWhile (fun d => !(d.focusGen == g))).countP (fun d => d.accept_focus) ∧
      (flatten (shift_prev g t).2).map NodeData.stripGen =
        (flatten t).map NodeData.stripGen ∧
      firstFocused (shift_prev g t).1 (flatten (shift_prev g t).2) =
        (lastAcc (rest.takeWhile (fun d => !(d.focusGen == g)))).map (· + 1)) := by
  intro d0 rest heq
  have hbr := shift_prev_bridge g t
  have hbrest : ∀ d ∈ rest, d.focusGen ≤ g := by
    intro d hd
    refine hb d ?_
    rw [heq]
    exact List.mem_cons_of_mem d0 hd
  have hd0 : d0.focusGen ≤ g := by
    refine hb d0 ?_
    rw [heq]
    exact List.mem_cons_self d0 rest
  have hchar := spGo_char g rest g (le_refl g) hbrest
  have hL : shiftPrevL g (flatten t) = ((spGo g g rest).1, d0 :: (spGo g g rest).2) := by
    rw [heq]; rfl
  rw [hbr.1, hbr.2, hL]
  set cnt := (rest.takeWhile (fun d => !(d.focusGen == g))).countP (fun d => d.accept_focus)
    with hcnt
  constructor
  · intro hz
    refine ⟨by rw [hchar.1, hz]; omega, ?_⟩
    rw [hchar.2.2.1 hz, heq]
  · intro hpos
    refine ⟨by rw [hchar.1], ?_, ?_⟩
    · rw [heq]
      simp only [List.map_cons, hchar.2.1]
    · have hgen : (spGo g g rest).1 = g + cnt := hchar.1
      have hne : (d0.focusGen == (spGo g g rest).1) = false := by
        rw [hgen]
        simp only [beq_eq_false_iff_ne]
        omega
      rw [firstFocused_cons, hne]
      have hrec := hchar.2.2.2 hpos
      rw [hrec]
      simp

/-- Witness for `shift_prev_behavior`: the three-node tree with all
nodes focusable and no focus; `shift_prev` wraps to the LAST focusable
non-root node (preorder position 2). -/
theorem shift_prev_behavior_witness :
    (∀ d ∈ flatten (NTree.node ⟨"r", 0, false, true⟩
        [NTree.node ⟨"a", 0, false, true⟩ [], NTree.node ⟨"b", 0, false, true⟩ []]),
      d.focusGen ≤ 1) ∧
    flatten (NTree.node ⟨"r", 0, false, true⟩
        [NTree.node ⟨"a", 0, false, true⟩ [], NTree.node ⟨"b", 0, false, true⟩ []]) =
      (⟨"r", 0, false, true⟩ : NodeData) ::
        [(⟨"a", 0, false, true⟩ : NodeData), (⟨"b", 0, false, true⟩ : NodeData)] ∧
    firstFocused
        (shift_prev 1 (NTree.node ⟨"r", 0, false, true⟩
          [NTree.node ⟨"a", 0, false, true⟩ [], NTree.node ⟨"b", 0, false, true⟩ []])).1
        (flatten (shift_prev 1 (NTree.node ⟨"r", 0, false, true⟩
          [NTree.node ⟨"a", 0, false, true⟩ [], NTree.node ⟨"b", 0, false, true⟩ []])).2) =
      (lastAcc ([(⟨"a", 0, false, true⟩ : NodeData),
        (⟨"b", 0, false, true⟩ : NodeData)].takeWhile
          (fun d => !(d.focusGen == 1)))).map (· + 1) :=
  ⟨by decide, by decide,
    ((shift_prev_behavior (NTree.node ⟨"r", 0, false, true⟩
        [NTree.node ⟨"a", 0, false, true⟩ [], NTree.node ⟨"b", 0, false, true⟩ []]) 1
      (by decide)
      ⟨"r", 0, false, true⟩
      [⟨"a", 0, false, true⟩, ⟨"b", 0, false, true⟩] (by decide)).2 (by decide)).2.2⟩

end Canopy
